import Mathlib

/-!
Verification of the configuration and secret-resolution core of the
mcp-integrated-search-server repository.

Strings are modelled as `List Char`.  The embedded functions mirror, line by
line, the TypeScript sources:

* `src/config/secrets-resolver.ts`  (class `SecretsResolver`)
* `src/config/schemas.ts`           (zod schemas)
* `src/config/redmine-repository-manager.ts` (class `RedmineRepositoryManager`)
* `src/redmine/field-resolver.ts`   (class `RedmineFieldResolver`)

External collaborators (the process environment, the filesystem, `JSON.parse`,
the WHATWG URL parser used by `z.string().url()`, and the HTTP client) are
passed in as explicit function parameters, exactly at the interfaces the
source consumes them.
-/

/-- Decidable equality for `Except`, used to evaluate the embedded
operations on concrete inputs. -/
instance {ε α : Type} [DecidableEq ε] [DecidableEq α] : DecidableEq (Except ε α) := fun x y =>
  match x, y with
  | .ok a, .ok b => if h : a = b then isTrue (by rw [h]) else isFalse (by simp [h])
  | .error a, .error b => if h : a = b then isTrue (by rw [h]) else isFalse (by simp [h])
  | .ok _, .error _ => isFalse (by simp)
  | .error _, .ok _ => isFalse (by simp)

namespace MCPSearch

/-- Shorthand turning a string literal into the `List Char` representation. -/
def str (s : String) : List Char := s.data

/-- Open-brace character, written via its code point. -/
def obr : Char := '\x7b'

/-- Close-brace character, written via its code point. -/
def cbr : Char := '\x7d'

/-- Lower-casing of a single character, as `String.prototype.toLowerCase`
acts on ASCII letters (the only characters appearing in the claims). -/
def lowerChar (c : Char) : Char :=
  if 'A' ≤ c ∧ c ≤ 'Z' then Char.ofNat (c.toNat + 32) else c

/-- Lower-casing of a whole string. -/
def lowerStr (s : List Char) : List Char := s.map lowerChar

/-- Whitespace test used by `String.prototype.trim` (ASCII subset). -/
def isWs (c : Char) : Bool :=
  c = ' ' || c = '\t' || c = '\n' || c = '\r' || c = '\x0b' || c = '\x0c'

/-- JavaScript `value.trim()`. -/
def jsTrim (s : List Char) : List Char :=
  ((s.dropWhile isWs).reverse.dropWhile isWs).reverse

/-- JavaScript `Array.prototype.join(sep)` on a list of strings. -/
def joinSep (sep : List Char) : List (List Char) → List Char
  | [] => []
  | [x] => x
  | x :: xs => x ++ sep ++ joinSep sep xs

namespace SecretsResolver

/-- Decimal rendering of a natural number, for the length reported in the
too-short error message. -/
def natStr (n : Nat) : List Char := Nat.toDigits 10 n

/-- Mask of `src/config/secrets-resolver.ts` (`SecretsResolver.mask`):
first four characters followed by three asterisks, or four asterisks when
the key is empty or at most four characters long. -/
def mask (apiKey : List Char) : List Char :=
  if apiKey = [] then str ("****")
  else if apiKey.length ≤ 4 then str ("****")
  else apiKey.take 4 ++ str ("***")

/-- Detection of the regex `/<[^>]+>/` from `PLACEHOLDER_PATTERNS`:
an angle-bracketed token with at least one non-> character inside. -/
def hasAngleToken : List Char → Bool
  | [] => false
  | '<' :: rest =>
    (decide (rest.takeWhile (· ≠ '>') ≠ []) &&
      (match rest.dropWhile (· ≠ '>') with
       | '>' :: _ => true
       | _ => false)) || hasAngleToken rest
  | _ :: rest => hasAngleToken rest

/-- Detection of the regex `/\[.*\]/` from `PLACEHOLDER_PATTERNS`: an open
bracket with a close bracket later on the same line (`.` does not match a
newline). -/
def hasBracketToken : List Char → Bool
  | [] => false
  | '[' :: rest =>
    (match rest.dropWhile (fun c => c ≠ ']' && c ≠ '\n') with
     | ']' :: _ => true
     | _ => false) || hasBracketToken rest
  | _ :: rest => hasBracketToken rest

/-- Prefixes whose presence (case-insensitively) marks a placeholder key:
the anchored patterns of `PLACEHOLDER_PATTERNS`.  For the patterns with an
optional suffix (`^your[_-]?` and friends) the bare word prefix already
decides `RegExp.test`; `^x\x7b3,\x7d` reduces to the prefix `xxx`;
`^replace[_-]?me` expands into its three concrete alternatives. -/
def placeholderStarts : List (List Char) :=
  [str ("your"), str ("example"), str ("test"), str ("dummy"),
   str ("placeholder"), str ("xxx"), str ("changeme"),
   str ("replaceme"), str ("replace_me"), str ("replace-me")]

/-- Whether any entry of `PLACEHOLDER_PATTERNS` matches the key. -/
def matchesPlaceholder (apiKey : List Char) : Bool :=
  placeholderStarts.any (fun p => p.isPrefixOf (lowerStr apiKey)) ||
    hasAngleToken apiKey || hasBracketToken apiKey

/-- Result type of `SecretsResolver.validate`. -/
inductive ValidationResult where
  | valid : ValidationResult
  | invalid (error : List Char) : ValidationResult
deriving DecidableEq, Repr

/-- Validation of `src/config/secrets-resolver.ts` (`SecretsResolver.validate`):
minimum length 16, no unresolved reference, no placeholder pattern. -/
def validate (apiKey : List Char) : ValidationResult :=
  if apiKey.length < 16 then
    .invalid (str ("API key too short (") ++ natStr apiKey.length ++
      str (" chars, minimum 16 required)"))
  else if ['$', obr] <:+: apiKey then
    .invalid (str ("API key contains unresolved environment variable reference. Ensure all referenced variables are defined."))
  else if matchesPlaceholder apiKey then
    .invalid (str ("API key appears to be a placeholder or example value. ") ++
      str ("Replace it with your actual API key."))
  else .valid

/-- Splitting helper for the `\$\x7b[^\x7d]+\x7d` pattern of
`SecretsResolver.resolve`: given the text following `$\x7b`, returns the
(nonempty) variable name up to the first close brace together with the text
after that brace, or `none` when the pattern cannot match here. -/
def splitBrace (rest : List Char) : Option (List Char × List Char) :=
  if rest.takeWhile (· ≠ cbr) ≠ [] ∧ rest.dropWhile (· ≠ cbr) ≠ [] then
    some (rest.takeWhile (· ≠ cbr), (rest.dropWhile (· ≠ cbr)).tail)
  else none

theorem splitBrace_length {rest name rest2 : List Char}
    (h : splitBrace rest = some (name, rest2)) : rest2.length < rest.length := by
  unfold splitBrace at h
  split at h
  · next hc =>
    simp only [Option.some.injEq, Prod.mk.injEq] at h
    obtain ⟨hn, hr⟩ := h
    have hsum : (rest.takeWhile (· ≠ cbr)).length + (rest.dropWhile (· ≠ cbr)).length
        = rest.length := by
      rw [← List.length_append, List.takeWhile_append_dropWhile]
    have h1 : (rest.takeWhile (· ≠ cbr)).length ≠ 0 := by
      simpa [List.length_eq_zero] using hc.1
    have h2 : (rest.dropWhile (· ≠ cbr)).length ≠ 0 := by
      simpa [List.length_eq_zero] using hc.2
    have h3 : rest2.length = (rest.dropWhile (· ≠ cbr)).length - 1 := by
      rw [← hr, List.length_tail]
    omega
  · exact absurd h (by simp)

/-- Occurrence check corresponding to `value.match(/\$\x7b([^\x7d]+)\x7d/g)` in
`SecretsResolver.resolve`: does the string contain at least one complete
`$\x7bNAME\x7d` placeholder? -/
def hasPh : List Char → Bool
  | '$' :: b :: rest1 => (b = obr && (splitBrace rest1).isSome) || hasPh (b :: rest1)
  | _ :: rest => hasPh rest
  | [] => false
termination_by l => l.length
decreasing_by all_goals simp_arith

/-- Scanner for `SecretsResolver.resolve`: walks the string exactly as the
global regex replace does, substituting each `$\x7bNAME\x7d` whose variable is
set, keeping unresolved placeholders verbatim, and collecting the missing
variable names in order of occurrence. -/
def resolveScan (env : List Char → Option (List Char)) : List Char → List Char × List (List Char)
  | '$' :: b :: rest1 =>
    if b = obr then
      match h : splitBrace rest1 with
      | some (name, rest2) =>
        let r := resolveScan env rest2
        match env name with
        | some v => (v ++ r.1, r.2)
        | none => ('$' :: obr :: (name ++ cbr :: r.1), name :: r.2)
      | none =>
        let r := resolveScan env (b :: rest1)
        ('$' :: r.1, r.2)
    else
      let r := resolveScan env (b :: rest1)
      ('$' :: r.1, r.2)
  | c :: rest =>
    let r := resolveScan env rest
    (c :: r.1, r.2)
  | [] => ([], [])
termination_by l => l.length
decreasing_by
  all_goals simp_arith
  have := splitBrace_length h
  omega

/-- Error message thrown by `SecretsResolver.resolve` when referenced
environment variables are undefined. -/
def missingMsg (missingVars : List (List Char)) : List Char :=
  str ("Environment variable(s) not defined: ") ++ joinSep (str (", ")) missingVars ++
    str (". Set them in your .env file or environment.")

/-- Resolution of `src/config/secrets-resolver.ts` (`SecretsResolver.resolve`),
with the process environment passed as a function.  Empty input fails; input
with no placeholder is returned unchanged; otherwise every placeholder is
substituted and, if any referenced variable is undefined, the call fails with
a single message enumerating all missing names. -/
def resolve (env : List Char → Option (List Char)) (value : List Char) :
    Except (List Char) (List Char) :=
  if value = [] then .error (str ("Cannot resolve empty value"))
  else if hasPh value = false then .ok value
  else
    let r := resolveScan env value
    if r.2 = [] then .ok r.1 else .error (missingMsg r.2)

/-- Expansion of a replacement string by `String.prototype.replace`:
`$$`, `$&`, a backtick dollar-escape and a quote dollar-escape are special
(the pattern has no capture groups, so `$n` and `$<...>` stay literal).
`m` is the matched text, `pre` the part of the subject before the match and
`after` the part after it. -/
def expandRep (m pre after : List Char) : List Char → List Char
  | '$' :: '$' :: r => '$' :: expandRep m pre after r
  | '$' :: '&' :: r => m ++ expandRep m pre after r
  | '$' :: '\x60' :: r => pre ++ expandRep m pre after r
  | '$' :: '\x27' :: r => after ++ expandRep m pre after r
  | c :: rest => c :: expandRep m pre after rest
  | [] => []

/-- Global literal replacement as performed by
`redacted.replace(new RegExp(escapedSecret, 'g'), this.mask(secret))`:
leftmost non-overlapping matches of the (escaped, hence literal) pattern
`p :: pr`, each replaced by `rep` expanded against the original subject
(`pre` accumulates the consumed prefix). -/
def replaceAux (p : Char) (pr rep : List Char) (pre : List Char) : List Char → List Char
  | [] => []
  | c :: t =>
    if (p :: pr).isPrefixOf (c :: t) then
      expandRep (p :: pr) pre (t.drop pr.length) rep ++
        replaceAux p pr rep (pre ++ p :: pr) (t.drop pr.length)
    else c :: replaceAux p pr rep (pre ++ [c]) t
termination_by l => l.length
decreasing_by
  all_goals simp_arith

/-- Redaction of `src/config/secrets-resolver.ts`
(`SecretsResolver.redactFromText`): every non-empty secret is replaced,
wherever it occurs literally, by its mask. -/
def redactFromText (text : List Char) (secrets : List (List Char)) : List Char :=
  if text = [] ∨ secrets = [] then text
  else
    secrets.foldl
      (fun redacted secret =>
        match secret with
        | [] => redacted
        | p :: pr => replaceAux p pr (mask secret) [] redacted)
      text

/-- Combined resolution and validation
(`SecretsResolver.resolveAndValidate`). -/
def resolveAndValidate (env : List Char → Option (List Char)) (value : List Char) :
    Except (List Char) (List Char) :=
  match resolve env value with
  | .error e => .error e
  | .ok resolved =>
    match validate resolved with
    | .invalid e => .error (str ("Invalid API key: ") ++ e)
    | .valid => .ok resolved

end SecretsResolver

/-! Configuration schemas of `src/config/schemas.ts` (zod), embedded as
functions from raw documents to `Except`.  A raw document field is `none`
when it is omitted from the JSON object.  The WHATWG URL parser behind
`z.string().url()` is part of the JavaScript runtime, so it is passed in as
the parameter `urlValid`. -/

/-- Raw per-repository defaults (`RedmineRepositoryDefaultsSchema`); each
field is optional and nullable, and its union type is checked by zod only at
the type level, which the typed embedding already guarantees. -/
structure RawDefaults where
  projectId : Option (Option (Int ⊕ List Char)) := none
  trackerId : Option (Option (Int ⊕ List Char)) := none
  statusId : Option (Option (Int ⊕ List Char)) := none
  priorityId : Option (Option (Int ⊕ List Char)) := none
deriving DecidableEq, Repr

/-- Raw repository record as it appears in the parsed JSON document. -/
structure RawRepo where
  id : Option (List Char) := none
  displayName : Option (List Char) := none
  url : Option (List Char) := none
  apiKey : Option (List Char) := none
  secretSource : Option (List Char) := none
  defaults : Option RawDefaults := none
  enabled : Option Bool := none
  description : Option (List Char) := none
deriving DecidableEq, Repr

/-- Raw configuration document. -/
structure RawConfig where
  configVersion : Option (List Char) := none
  defaultRepositoryId : Option (List Char) := none
  repositories : Option (List RawRepo) := none
deriving DecidableEq, Repr

/-- Validated repository record (`RedmineRepositorySchema` output). -/
structure RedmineRepository where
  id : List Char
  displayName : List Char
  url : List Char
  apiKey : List Char
  secretSource : List Char
  defaults : Option RawDefaults := none
  enabled : Bool
  description : Option (List Char) := none
deriving DecidableEq, Repr

/-- Validated configuration document (`RedmineConfigSchema` output). -/
structure RedmineConfig where
  configVersion : List Char
  defaultRepositoryId : Option (List Char) := none
  repositories : List RedmineRepository
deriving DecidableEq, Repr

/-- Character class of the id regex `^[a-z0-9-_]+$`. -/
def idCharOk (c : Char) : Bool :=
  ('a' ≤ c && c ≤ 'z') || ('0' ≤ c && c ≤ '9') || c = '-' || c = '_'

/-- Values accepted by `SecretSourceSchema` (`z.enum`). -/
def secretSources : List (List Char) :=
  [str ("environment"), str ("aws-secrets-manager"), str ("vault"),
   str ("azure-keyvault")]

/-- Validation of one repository record (`RedmineRepositorySchema.parse`).
Required fields reject omission; `enabled` defaults to `true`; there is no
default for `secretSource`.  `urlValid` stands for the runtime URL parser
used by `z.string().url()`. -/
def parseRepo (urlValid : List Char → Bool) (r : RawRepo) :
    Except (List Char) RedmineRepository :=
  match r.id with
  | none => .error (str ("Required"))
  | some i =>
    if i = [] then .error (str ("Repository id is required"))
    else if ¬ i.all idCharOk then
      .error (str ("Repository id must be lowercase alphanumeric with - or _"))
    else
      match r.displayName with
      | none => .error (str ("Required"))
      | some dn =>
        if dn = [] then .error (str ("displayName is required"))
        else
          match r.url with
          | none => .error (str ("Required"))
          | some u =>
            if ¬ urlValid u then .error (str ("Invalid URL format"))
            else if u.getLast? = some '/' then
              .error (str ("URL should not end with slash"))
            else
              match r.apiKey with
              | none => .error (str ("Required"))
              | some k =>
                if k = [] then .error (str ("apiKey is required"))
                else
                  match r.secretSource with
                  | none => .error (str ("Required"))
                  | some ss =>
                    if ¬ secretSources.contains ss then
                      .error (str ("Invalid enum value"))
                    else
                      .ok { id := i, displayName := dn, url := u, apiKey := k,
                            secretSource := ss, defaults := r.defaults,
                            enabled := r.enabled.getD true,
                            description := r.description }

/-- Elementwise validation of the repository array. -/
def parseRepos (urlValid : List Char → Bool) :
    List RawRepo → Except (List Char) (List RedmineRepository)
  | [] => .ok []
  | r :: rs =>
    match parseRepo urlValid r with
    | .error e => .error e
    | .ok pr =>
      match parseRepos urlValid rs with
      | .error e => .error e
      | .ok prs => .ok (pr :: prs)

/-- Validation of a whole document (`RedmineConfigSchema.parse`).  The schema
checks `configVersion`, the optional `defaultRepositoryId` string, and that
`repositories` is a non-empty array of valid records; it contains no
cross-record rule. -/
def parseConfig (urlValid : List Char → Bool) (raw : RawConfig) :
    Except (List Char) RedmineConfig :=
  match raw.configVersion with
  | none => .error (str ("Required"))
  | some v =>
    if v = [] then .error (str ("configVersion is required"))
    else
      match raw.repositories with
      | none => .error (str ("Required"))
      | some rs =>
        if rs = [] then .error (str ("At least one repository is required"))
        else
          match parseRepos urlValid rs with
          | .error e => .error e
          | .ok prs =>
            .ok { configVersion := v,
                  defaultRepositoryId := raw.defaultRepositoryId,
                  repositories := prs }

/-! Repository manager of `src/config/redmine-repository-manager.ts`.
The process environment, filesystem, `JSON.parse` and URL parser are the
collaborators bundled in `World`; the manager instance state is `MgrState`. -/

/-- External collaborators consumed by the repository manager. -/
structure World where
  env : List Char → Option (List Char)
  fs : List Char → Option (List Char)
  parseJson : List Char → Except (List Char) RawConfig
  urlValid : List Char → Bool
  cwd : List Char
  homedir : List Char

/-- Mutable instance state of `RedmineRepositoryManager`: the lazily loaded
configuration and the `apiKeyCache` map. -/
structure MgrState where
  config : Option RedmineConfig := none
  apiKeyCache : List (List Char × List Char) := []
deriving DecidableEq, Repr

/-- JavaScript `Map.prototype.get`. -/
def cacheGet (m : List (List Char × List Char)) (k : List Char) : Option (List Char) :=
  (m.find? (fun p => p.1 == k)).map (·.2)

/-- JavaScript `Map.prototype.set` (replaces an existing key, else appends). -/
def cacheSet (m : List (List Char × List Char)) (k v : List Char) :
    List (List Char × List Char) :=
  if m.any (fun p => p.1 == k) then
    m.map (fun p => if p.1 == k then (k, v) else p)
  else m ++ [(k, v)]

/-- Home expansion (`expandHome`). -/
def expandHome (homedir p : List Char) : List Char :=
  match p with
  | '~' :: rest => homedir ++ rest
  | _ => p

/-- Candidate configuration paths, in the priority order of `loadConfig`
(explicit override, local override file, local default file, user-home file);
an unset or empty `REDMINE_CONFIG_PATH` contributes nothing. -/
def candidatePaths (w : World) : List (List Char) :=
  (match w.env (str ("REDMINE_CONFIG_PATH")) with
   | some s => if s = [] then [] else [expandHome w.homedir s]
   | none => []) ++
  [w.cwd ++ str ("/redmine-repositories.local.json"),
   w.cwd ++ str ("/redmine-repositories.json"),
   w.homedir ++ str ("/.mcp-integrated-search/redmine-repositories.json")]

/-- Drop of a single trailing slash (`legacyUrl.replace(/\/$/, '')`). -/
def stripTrailingSlash (u : List Char) : List Char :=
  if u.getLast? = some '/' then u.dropLast else u

/-- Legacy single-repository document synthesized from `REDMINE_URL` and
`REDMINE_API_KEY` when no configuration file exists. -/
def legacyRaw (legacyUrl : List Char) : RawConfig :=
  { configVersion := some (str ("1.0")),
    defaultRepositoryId := some (str ("legacy")),
    repositories := some
      [{ id := some (str ("legacy")),
         displayName := some (str ("Legacy Redmine")),
         url := some (stripTrailingSlash legacyUrl),
         apiKey := some ('$' :: obr :: (str ("REDMINE_API_KEY") ++ [cbr])),
         secretSource := some (str ("environment")),
         enabled := some true }] }

/-- Error raised when no configuration source is available. -/
def noConfigMsg : List Char :=
  str ("No Redmine configuration found. Provide REDMINE_CONFIG_PATH or add a redmine-repositories.json. ") ++
    str ("Alternatively set REDMINE_URL and REDMINE_API_KEY for legacy mode.")

/-- Walk of the candidate list: the first path that exists on disk is parsed
and validated, and its errors propagate unchanged; later candidates are only
reached when earlier ones do not exist. -/
def loadConfigGo (w : World) : List (List Char) → Except (List Char) RedmineConfig
  | [] =>
    (match w.env (str ("REDMINE_URL")), w.env (str ("REDMINE_API_KEY")) with
     | some legacyUrl, some legacyKey =>
       if legacyUrl ≠ [] ∧ legacyKey ≠ [] then
         parseConfig w.urlValid (legacyRaw legacyUrl)
       else .error noConfigMsg
     | _, _ => .error noConfigMsg)
  | p :: ps =>
    match w.fs p with
    | some raw =>
      (match w.parseJson raw with
       | .error e => .error e
       | .ok json => parseConfig w.urlValid json)
    | none => loadConfigGo w ps

/-- Configuration loading (`RedmineRepositoryManager.loadConfig`). -/
def loadConfig (w : World) : Except (List Char) RedmineConfig :=
  loadConfigGo w (candidatePaths w)

/-- Lazy configuration access (`getConfig`): loads on first use and stores
the document in the instance state. -/
def getConfigSt (w : World) (st : MgrState) :
    Except (List Char) (RedmineConfig × MgrState) :=
  match st.config with
  | some c => .ok (c, st)
  | none =>
    match loadConfig w with
    | .error e => .error e
    | .ok c => .ok (c, { st with config := some c })

/-- Not-found error of `getRepository`, enumerating the available ids. -/
def notFoundMsg (targetId : List Char) (available : List (List Char)) : List Char :=
  str ("Repository \x27") ++ targetId ++ str ("\x27 not found. Available: ") ++
    joinSep (str (", ")) available

/-- Disabled-repository error of `getRepository`. -/
def disabledMsg (targetId : List Char) : List Char :=
  str ("Repository \x27") ++ targetId ++ str ("\x27 is disabled")

/-- Error raised when no target id can be determined. -/
def noReposMsg : List Char := str ("No repositories defined in configuration")

/-- Pure repository resolution against a loaded document
(`RedmineRepositoryManager.getRepository`): explicit id, else declared
default, else the first record; a JavaScript-falsy (empty) target id raises
the no-repositories error; a missing record raises the not-found error with
all ids; a disabled record raises the distinct disabled error. -/
def getRepositoryCfg (cfg : RedmineConfig) (id : Option (List Char)) :
    Except (List Char) RedmineRepository :=
  let targetId : Option (List Char) :=
    match id with
    | some i => some i
    | none =>
      match cfg.defaultRepositoryId with
      | some d => some d
      | none => (cfg.repositories.head?).map (fun r => r.id)
  match targetId with
  | none => .error noReposMsg
  | some t =>
    if t = [] then .error noReposMsg
    else
      match cfg.repositories.find? (fun r => r.id == t) with
      | none => .error (notFoundMsg t (cfg.repositories.map (·.id)))
      | some repo =>
        if ¬ repo.enabled then .error (disabledMsg t)
        else .ok repo

/-- Stateful repository resolution (loads the configuration if needed). -/
def getRepositorySt (w : World) (st : MgrState) (id : Option (List Char)) :
    Except (List Char) (RedmineRepository × MgrState) :=
  match getConfigSt w st with
  | .error e => .error e
  | .ok (cfg, st1) =>
    match getRepositoryCfg cfg id with
    | .error e => .error e
    | .ok repo => .ok (repo, st1)

/-- Credential resolution with caching
(`RedmineRepositoryManager.getResolvedApiKey`): a truthy cached value is
returned as is; otherwise `SecretsResolver.resolveAndValidate` runs on the
record's `apiKey` and the result is stored under the repository id. -/
def getResolvedApiKey (w : World) (st : MgrState) (repoId : Option (List Char)) :
    Except (List Char) (List Char × MgrState) :=
  match getRepositorySt w st repoId with
  | .error e => .error e
  | .ok (repo, st1) =>
    match cacheGet st1.apiKeyCache repo.id with
    | some (c :: cs) => .ok (c :: cs, st1)
    | _ =>
      match SecretsResolver.resolveAndValidate w.env repo.apiKey with
      | .error e => .error e
      | .ok resolved =>
        .ok (resolved, { st1 with apiKeyCache := cacheSet st1.apiKeyCache repo.id resolved })

/-- Cache reset (`RedmineRepositoryManager.clearCache`). -/
def clearCache (st : MgrState) : MgrState := { st with apiKeyCache := [] }

/-- Result record of the connectivity probe. -/
structure ConnectionTestResult where
  success : Bool
  message : List Char
  responseTimeMs : Nat
  serverVersion : Option (List Char) := none
deriving DecidableEq, Repr

/-- Connectivity probe (`RedmineRepositoryManager.testConnection`).  The HTTP
GET is the collaborator `probe`: `.ok v` is a successful response carrying
the optional version header, `.error errText` is the stringified thrown
error.  Failures of repository or credential resolution propagate as thrown
errors; probe failures are captured and returned as a structured result
whose message passes the raw error text through `redactFromText` with the
just-resolved credential. -/
def testConnection (w : World) (st : MgrState) (repoId : Option (List Char))
    (probe : Except (List Char) (Option (List Char))) (elapsed : Nat) :
    Except (List Char) (ConnectionTestResult × MgrState) :=
  match getRepositorySt w st repoId with
  | .error e => .error e
  | .ok (repo, st1) =>
    match getResolvedApiKey w st1 (some repo.id) with
    | .error e => .error e
    | .ok (apiKey, st2) =>
      match probe with
      | .ok serverVersion =>
        .ok ({ success := true, message := str ("Connection successful"),
               responseTimeMs := elapsed, serverVersion := serverVersion }, st2)
      | .error errText =>
        .ok ({ success := false,
               message := str ("Connection failed: ") ++
                 SecretsResolver.redactFromText errText [apiKey],
               responseTimeMs := elapsed, serverVersion := none }, st2)

/-! Field resolver of `src/redmine/field-resolver.ts`
(`RedmineFieldResolver.resolveField` and `getEntities`).  One `(fieldType,
repositoryId)` cache slot is modelled; the enumeration fetch is the
collaborator `fetch`.  JavaScript numbers are modelled exactly as scaled
decimals `num / 10 ^ scale`. -/

/-- Remote enumeration entry (`trackers` / `issue_statuses` /
`issue_priorities` element). -/
structure NamedEntity where
  id : Int
  name : List Char
deriving DecidableEq, Repr

/-- JavaScript number in scaled-decimal form: the value `num / 10 ^ scale`. -/
structure JsNum where
  num : Int
  scale : Nat
deriving DecidableEq, Repr

/-- Caller-supplied field value (`number | string | null | undefined`). -/
inductive FieldValue where
  | undef : FieldValue
  | null : FieldValue
  | num (n : JsNum) : FieldValue
  | strv (s : List Char) : FieldValue
deriving DecidableEq, Repr

/-- Decimal digit test. -/
def isDigitCh (c : Char) : Bool := '0' ≤ c && c ≤ '9'

/-- Value of a digit string. -/
def digitsVal (l : List Char) : Nat :=
  l.foldl (fun a c => a * 10 + (c.toNat - 48)) 0

/-- JavaScript `Number(trimmed)` on optionally signed decimal numerals
(`±ddd`, `±ddd.ddd`, `±.ddd`, `±ddd.`): `none` models `NaN`.  Exponent and
hexadecimal notations are outside the domain used by the claims. -/
def jsParseNumber (s : List Char) : Option JsNum :=
  let (sign, body) : Int × List Char :=
    match s with
    | '+' :: r => (1, r)
    | '-' :: r => (-1, r)
    | _ => (1, s)
  let intPart := body.takeWhile (· ≠ '.')
  let rest := body.dropWhile (· ≠ '.')
  match rest with
  | [] =>
    if intPart ≠ [] ∧ intPart.all isDigitCh then
      some ⟨sign * digitsVal intPart, 0⟩
    else none
  | _ :: frac =>
    if (intPart ++ frac) ≠ [] ∧ intPart.all isDigitCh ∧ frac.all isDigitCh then
      some ⟨sign * digitsVal (intPart ++ frac), frac.length⟩
    else none

/-- Name-matching stage of `resolveField` (steps after the enumeration is at
hand): case-insensitive exact match first, then the substring filter with
the unique / none / ambiguous outcomes. -/
def matchEntities (fieldLabel rawValue trimmed : List Char)
    (entities : List NamedEntity) : Except (List Char) (Option JsNum) :=
  let normalized := lowerStr trimmed
  match entities.find? (fun e => lowerStr e.name == normalized) with
  | some e => .ok (some ⟨e.id, 0⟩)
  | none =>
    let partialMatches := entities.filter (fun e => decide (normalized <:+: lowerStr e.name))
    match partialMatches with
    | [e] => .ok (some ⟨e.id, 0⟩)
    | [] =>
      .error (fieldLabel ++ str (" \x27") ++ rawValue ++
        str ("\x27 not found. Available values: ") ++
        joinSep (str (", ")) (entities.map (fun e => e.name)))
    | _ =>
      .error (fieldLabel ++ str (" \x27") ++ rawValue ++
        str ("\x27 is ambiguous. Possible matches: ") ++
        joinSep (str (", ")) (partialMatches.map (fun e => e.name)))

/-- Enumeration lookup and matching (`resolveField` steps 3-5 together with
`getEntities`): a populated cache slot is used without any fetch; otherwise
the fetch collaborator runs (third result component `true`), its entity list
is stored in the cache on success, and a failed or malformed response
propagates with the cache unchanged. -/
def lookupEntities (fieldLabel rawValue trimmed : List Char)
    (cache : Option (List NamedEntity))
    (fetch : Except (List Char) (List NamedEntity)) :
    Except (List Char) (Option JsNum) × Option (List NamedEntity) × Bool :=
  match cache with
  | some entities => (matchEntities fieldLabel rawValue trimmed entities, some entities, false)
  | none =>
    match fetch with
    | .error e => (.error e, none, true)
    | .ok entities => (matchEntities fieldLabel rawValue trimmed entities, some entities, true)

/-- Field resolution (`RedmineFieldResolver.resolveField`).  Result
components: the resolved value (`.ok none` meaning `undefined`), the cache
slot after the call, and whether a network fetch was performed. -/
def resolveField (fieldLabel : List Char) (value : FieldValue)
    (cache : Option (List NamedEntity))
    (fetch : Except (List Char) (List NamedEntity)) :
    Except (List Char) (Option JsNum) × Option (List NamedEntity) × Bool :=
  match value with
  | .undef => (.ok none, cache, false)
  | .null => (.ok none, cache, false)
  | .num n => (.ok (some n), cache, false)
  | .strv s =>
    if s = [] then (.ok none, cache, false)
    else
      let trimmed := jsTrim s
      if trimmed = [] then (.ok none, cache, false)
      else
        match jsParseNumber trimmed with
        | some d =>
          if ((10 : Int) ^ d.scale ∣ d.num) ∧ 0 < d.num then
            (.ok (some ⟨d.num / (10 : Int) ^ d.scale, 0⟩), cache, false)
          else lookupEntities fieldLabel s trimmed cache fetch
        | none => lookupEntities fieldLabel s trimmed cache fetch

/-! Claim C3: behaviour of field resolution on the Bug / Bugfix enumeration. -/

/-- Enumeration used by claim C3. -/
def bugEntities : List NamedEntity := [⟨1, str ("Bug")⟩, ⟨2, str ("Bugfix")⟩]

/-- Claim C3, counterexample: on the enumeration [(1, Bug), (2, Bugfix)] the
input string "bug" does not fail as ambiguous — it is a case-insensitive
exact match of "Bug", so resolution succeeds with id 1 and no error is
raised. -/
theorem C3_counterexample :
    resolveField (str ("Tracker")) (.strv (str ("bug"))) (some bugEntities) (.ok [])
      = (.ok (some ⟨1, 0⟩), some bugEntities, false) := by decide

/-- Claim C3, amended: with input "bug" resolution succeeds returning id 1
(the case-insensitive exact match on "Bug" takes precedence over the partial
match on "Bugfix"), while the input "bu", which matches both names only
partially, fails as ambiguous with an error message listing both names
"Bug" and "Bugfix". -/
theorem C3_theorem :
    resolveField (str ("Tracker")) (.strv (str ("bug"))) (some bugEntities) (.ok [])
        = (.ok (some ⟨1, 0⟩), some bugEntities, false) ∧
    resolveField (str ("Tracker")) (.strv (str ("bu"))) (some bugEntities) (.ok [])
        = (.error (str ("Tracker \x27bu\x27 is ambiguous. Possible matches: Bug, Bugfix")),
           some bugEntities, false) ∧
    str ("Bug") <:+: str ("Tracker \x27bu\x27 is ambiguous. Possible matches: Bug, Bugfix") ∧
    str ("Bugfix") <:+: str ("Tracker \x27bu\x27 is ambiguous. Possible matches: Bug, Bugfix") := by
  refine ⟨by decide, by decide, by decide, by decide⟩

/-! Claim C4: schema defaults for `enabled` and `secretSource`. -/

/-- Raw record omitting `enabled` (claim C4). -/
def rawRepoNoEnabled : RawRepo :=
  { id := some (str ("main")), displayName := some (str ("Main")),
    url := some (str ("https://redmine.example.com")),
    apiKey := some (str ("valid_key_1234567890")),
    secretSource := some (str ("environment")) }

/-- Raw record omitting `secretSource` (claim C4). -/
def rawRepoNoSource : RawRepo :=
  { rawRepoNoEnabled with secretSource := none, enabled := some true }

/-- Validated form of `rawRepoNoEnabled`. -/
def parsedRepoMain : RedmineRepository :=
  { id := str ("main"), displayName := str ("Main"),
    url := str ("https://redmine.example.com"),
    apiKey := str ("valid_key_1234567890"),
    secretSource := str ("environment"), enabled := true }

/-- Claim C4, counterexample: a record omitting `secretSource` (but valid in
every other field) fails validation with a required-field error instead of
succeeding with the default value `environment`. -/
theorem C4_counterexample :
    parseRepo (fun _ => true) rawRepoNoSource = .error (str ("Required")) := by decide

/-- Claim C4, amended: when a repository record omits `enabled`, any
successful validation yields `enabled = true`; a record omitting
`secretSource` never validates (the field is required and has no default). -/
theorem C4_theorem (f : List Char → Bool) (rec : RawRepo) (out : RedmineRepository)
    (h : parseRepo f rec = .ok out) :
    (rec.enabled = none → out.enabled = true) ∧ rec.secretSource ≠ none := by
  unfold parseRepo at h
  repeat' split at h
  all_goals simp_all
  intro he
  rw [← h]
  simp [he]

/-- Claim C4, witness: the amended theorem applied to the concrete record
omitting `enabled`, whose validation succeeds. -/
theorem C4_witness :
    (rawRepoNoEnabled.enabled = none → parsedRepoMain.enabled = true) ∧
      rawRepoNoEnabled.secretSource ≠ none :=
  C4_theorem (fun _ => true) rawRepoNoEnabled parsedRepoMain (by decide)

/-! Claim C2: cross-record invariants of the configuration schema. -/

/-- Document with two repositories sharing the id `main` and a
`defaultRepositoryId` (`ghost`) matching no record (claim C2). -/
def dupRawConfig : RawConfig :=
  { configVersion := some (str ("1.0")),
    defaultRepositoryId := some (str ("ghost")),
    repositories := some [rawRepoNoEnabled, rawRepoNoEnabled] }

/-- Validated form of `dupRawConfig`. -/
def dupParsedConfig : RedmineConfig :=
  { configVersion := str ("1.0"), defaultRepositoryId := some (str ("ghost")),
    repositories := [parsedRepoMain, parsedRepoMain] }

/-- Claim C2, counterexample: the schema accepts a document whose repository
ids are not pairwise unique and whose `defaultRepositoryId` equals no
repository id — both invariants the claim asserts the validator enforces
are violated in the accepted document. -/
theorem C2_counterexample :
    parseConfig (fun _ => true) dupRawConfig = .ok dupParsedConfig ∧
    dupParsedConfig.repositories.map (fun r => r.id) = [str ("main"), str ("main")] ∧
    dupParsedConfig.defaultRepositoryId = some (str ("ghost")) := by
  refine ⟨by decide, by decide, by decide⟩

/-- Elementwise success of the repository array validation. -/
theorem parseRepos_ok_of_all (f : List Char → Bool) :
    ∀ rs : List RawRepo, (∀ r ∈ rs, ∃ out, parseRepo f r = .ok out) →
      ∃ outs, parseRepos f rs = .ok outs := by
  intro rs
  induction rs with
  | nil => intro _; exact ⟨[], rfl⟩
  | cons r rest ih =>
    intro hall
    obtain ⟨out, hout⟩ := hall r (List.mem_cons_self r rest)
    obtain ⟨outs, houts⟩ := ih (fun x hx => hall x (List.mem_cons_of_mem r hx))
    exact ⟨out :: outs, by simp [parseRepos, hout, houts]⟩

/-- Claim C2, amended: the Configuration Schema Validator checks only the
version tag, the non-emptiness of the repository array and per-record
validity; it enforces no cross-record invariant, so it also succeeds on
documents with duplicate repository ids or with a `defaultRepositoryId`
referencing no record. -/
theorem C2_theorem (f : List Char → Bool) (raw : RawConfig) (v : List Char)
    (rs : List RawRepo)
    (hv : raw.configVersion = some v) (hvne : v ≠ [])
    (hrs : raw.repositories = some rs) (hne : rs ≠ [])
    (hall : ∀ r ∈ rs, ∃ out, parseRepo f r = .ok out) :
    ∃ cfg, parseConfig f raw = .ok cfg ∧
      cfg.defaultRepositoryId = raw.defaultRepositoryId := by
  obtain ⟨outs, houts⟩ := parseRepos_ok_of_all f rs hall
  refine ⟨{ configVersion := v, defaultRepositoryId := raw.defaultRepositoryId,
            repositories := outs }, ?_, rfl⟩
  unfold parseConfig
  rw [hv, hrs]
  simp [hvne, hne, houts]

/-- Claim C2, witness: the amended theorem applied to the duplicate-id,
dangling-default document, which the validator accepts. -/
theorem C2_witness :
    ∃ cfg, parseConfig (fun _ => true) dupRawConfig = .ok cfg ∧
      cfg.defaultRepositoryId = dupRawConfig.defaultRepositoryId :=
  C2_theorem (fun _ => true) dupRawConfig (str ("1.0"))
    [rawRepoNoEnabled, rawRepoNoEnabled] rfl (by decide) rfl (by decide)
    (by
      intro r hr
      fin_cases hr <;> exact ⟨parsedRepoMain, by decide⟩)

/-! Claim C5: numeric-looking string inputs and the fetch/cache frame. -/

/-- Claim C5, counterexample: the input string "0" parses as a number (zero),
yet resolution does not return directly — it fails the positivity guard,
performs a network fetch (final component `true`) and populates the cache. -/
theorem C5_counterexample :
    jsParseNumber (jsTrim (str ("0"))) = some ⟨0, 0⟩ ∧
    resolveField (str ("Status")) (.strv (str ("0"))) none (.ok [⟨1, str ("New")⟩])
      = (.error (str ("Status \x270\x27 not found. Available values: New")),
         some [⟨1, str ("New")⟩], true) := by
  refine ⟨by decide, by decide⟩

/-- Claim C5, amended: for every string whose trimmed form parses (as an
optionally signed decimal numeral) to a positive integer, field resolution
returns that integer directly: no network fetch is performed and the cache
slot is returned unchanged, whatever it contained.  Numeric-looking strings
whose value is zero, negative or fractional instead fall through to the
enumeration lookup. -/
theorem C5_theorem (label s : List Char) (cache : Option (List NamedEntity))
    (fetch : Except (List Char) (List NamedEntity)) (d : JsNum)
    (hparse : jsParseNumber (jsTrim s) = some d)
    (hint : (10 : Int) ^ d.scale ∣ d.num) (hpos : 0 < d.num) :
    resolveField label (.strv s) cache fetch
      = (.ok (some ⟨d.num / (10 : Int) ^ d.scale, 0⟩), cache, false) := by
  have hnil : jsParseNumber (jsTrim []) = none := by decide
  have hs : s ≠ [] := by
    intro h
    rw [h, hnil] at hparse
    exact Option.noConfusion hparse
  have ht : jsTrim s ≠ [] := by
    intro h
    rw [h] at hparse
    exact Option.noConfusion ((by decide : jsParseNumber [] = none) ▸ hparse)
  simp only [resolveField, if_neg hs, if_neg ht, hparse, if_pos (And.intro hint hpos)]

/-- Claim C5, witness: the amended theorem at the concrete input "42" with an
empty cache and a failing fetch collaborator, which is never consulted. -/
theorem C5_witness :
    resolveField (str ("Tracker")) (.strv (str ("42"))) none (.error (str ("boom")))
      = (.ok (some ⟨(42 : Int) / (10 : Int) ^ (0 : Nat), 0⟩), none, false) :=
  C5_theorem (str ("Tracker")) (str ("42")) none (.error (str ("boom"))) ⟨42, 0⟩
    (by decide) (by decide) (by decide)

/-! Claim C7: repository lookup against a valid document. -/

/-- First-match lookup pinned down by id uniqueness. -/
theorem find?_id_eq_some {l : List RedmineRepository} {r : RedmineRepository}
    {t : List Char} (hnd : (l.map (fun x => x.id)).Nodup) (hr : r ∈ l)
    (hid : r.id = t) : l.find? (fun x => x.id == t) = some r := by
  induction l with
  | nil => exact absurd hr (List.not_mem_nil r)
  | cons x xs ih =>
    rcases List.mem_cons.mp hr with rfl | hmem
    · exact List.find?_cons_of_pos _ (by simp [hid])
    · have hx : x.id ∉ xs.map (fun y => y.id) := (List.nodup_cons.mp hnd).1
      have hxt : x.id ≠ t := by
        intro he
        exact hx (he ▸ hid ▸ List.mem_map_of_mem (fun y => y.id) hmem)
      rw [List.find?_cons_of_neg _ (by simp [hxt])]
      exact ih (List.nodup_cons.mp hnd).2 hmem

/-- Elements of a list occur inside its comma join. -/
theorem mem_infix_joinSep {a : List Char} (sep : List Char) :
    ∀ {l : List (List Char)}, a ∈ l → a <:+: joinSep sep l := by
  intro l
  induction l with
  | nil => intro h; exact absurd h (List.not_mem_nil a)
  | cons x xs ih =>
    intro h
    rcases List.mem_cons.mp h with rfl | hmem
    · cases xs with
      | nil => exact List.infix_refl a
      | cons y ys =>
        show a <:+: a ++ sep ++ joinSep sep (y :: ys)
        exact ((List.prefix_append a sep).trans
          (List.prefix_append (a ++ sep) (joinSep sep (y :: ys)))).isInfix
    · cases xs with
      | nil => exact absurd hmem (List.not_mem_nil a)
      | cons y ys =>
        show a <:+: x ++ sep ++ joinSep sep (y :: ys)
        exact (ih hmem).trans (List.suffix_append _ _).isInfix

/-- Every available id occurs in the not-found message. -/
theorem mem_infix_notFoundMsg {a t : List Char} {available : List (List Char)}
    (h : a ∈ available) : a <:+: notFoundMsg t available := by
  unfold notFoundMsg
  exact (mem_infix_joinSep (str (", ")) h).trans (List.suffix_append _ _).isInfix

/-- Claim C7: for a valid configuration document (at least one repository,
pairwise distinct non-empty ids, declared default referencing a record):
without an argument, `getRepository` resolves the declared default или, when
no default is declared, the first record, returning it when enabled and
failing with the distinct disabled message otherwise; with an argument it
returns exactly the matching record (when enabled), fails with the disabled
message when the match is disabled, and fails with a not-found message
enumerating every available id when no record matches. -/
theorem C7_theorem (cfg : RedmineConfig)
    (hne : cfg.repositories ≠ [])
    (hnd : (cfg.repositories.map (fun r => r.id)).Nodup)
    (hids : ∀ r ∈ cfg.repositories, r.id ≠ [])
    (hdef : ∀ d, cfg.defaultRepositoryId = some d → ∃ r ∈ cfg.repositories, r.id = d) :
    (∀ d r, cfg.defaultRepositoryId = some d → r ∈ cfg.repositories → r.id = d →
      getRepositoryCfg cfg none =
        (if r.enabled then .ok r else .error (disabledMsg d))) ∧
    (∀ r rs, cfg.defaultRepositoryId = none → cfg.repositories = r :: rs →
      getRepositoryCfg cfg none =
        (if r.enabled then .ok r else .error (disabledMsg r.id))) ∧
    (∀ i r, r ∈ cfg.repositories → r.id = i →
      getRepositoryCfg cfg (some i) =
        (if r.enabled then .ok r else .error (disabledMsg i))) ∧
    (∀ i, i ≠ [] → (∀ r ∈ cfg.repositories, r.id ≠ i) →
      getRepositoryCfg cfg (some i) =
        .error (notFoundMsg i (cfg.repositories.map (fun r => r.id))) ∧
      ∀ a ∈ cfg.repositories.map (fun r => r.id),
        a <:+: notFoundMsg i (cfg.repositories.map (fun r => r.id))) := by
  refine ⟨?_, ?_, ?_, ?_⟩
  · intro d r hd hr hid
    have hdne : d ≠ [] := hid ▸ hids r hr
    simp only [getRepositoryCfg, hd, if_neg hdne, find?_id_eq_some hnd hr hid]
    cases hrE : r.enabled <;> simp [hrE]
  · intro r rs hd hrepo
    have hr : r ∈ cfg.repositories := hrepo ▸ List.mem_cons_self r rs
    have hidne : r.id ≠ [] := hids r hr
    simp only [getRepositoryCfg, hd, hrepo, List.head?_cons, Option.map_some']
    rw [← hrepo]
    simp only [if_neg hidne, find?_id_eq_some hnd hr rfl]
    cases hrE : r.enabled <;> simp [hrE]
  · intro i r hr hid
    have hine : i ≠ [] := hid ▸ hids r hr
    simp only [getRepositoryCfg, if_neg hine, find?_id_eq_some hnd hr hid]
    cases hrE : r.enabled <;> simp [hrE]
  · intro i hine hnone
    have hfind : cfg.repositories.find? (fun x => x.id == i) = none := by
      rw [List.find?_eq_none]
      intro x hx
      simp [hnone x hx]
    constructor
    · simp only [getRepositoryCfg, if_neg hine, hfind]
    · intro a ha
      exact mem_infix_notFoundMsg ha

/-- Enabled repository record used by the claim C7 and C10 witnesses. -/
def wRepoMain : RedmineRepository :=
  { id := str ("main"), displayName := str ("Main"),
    url := str ("https://redmine.example.com"),
    apiKey := str ("valid_key_1234567890"),
    secretSource := str ("environment"), enabled := true }

/-- Disabled repository record used by the claim C7 and C10 witnesses. -/
def wRepoDev : RedmineRepository :=
  { wRepoMain with id := str ("dev"), enabled := false }

/-- Two-repository document with default `main` (claims C7 and C10). -/
def wCfg : RedmineConfig :=
  { configVersion := str ("1.0"), defaultRepositoryId := some (str ("main")),
    repositories := [wRepoMain, wRepoDev] }

/-- Claim C7, witness: the lookup theorem applied to a concrete document,
requesting the disabled record `dev` by id. -/
theorem C7_witness :
    getRepositoryCfg wCfg (some (str ("dev"))) =
      (if wRepoDev.enabled then .ok wRepoDev else .error (disabledMsg (str ("dev")))) :=
  (C7_theorem wCfg (by decide) (by decide) (by decide)
      (by
        intro d hd
        have : str ("main") = d := Option.some.inj hd
        exact ⟨wRepoMain, by decide, this ▸ rfl⟩)).2.2.1
    (str ("dev")) wRepoDev (by decide) rfl

/-! Claim C10: the credential-cache invariant. -/

/-- Invariant of the `apiKeyCache`: every stored value passes the secret
validator — at least 16 characters, no unresolved reference, no placeholder
signature. -/
def cacheWf (st : MgrState) : Prop :=
  ∀ kv ∈ st.apiKeyCache,
    16 ≤ kv.2.length ∧ ¬ (['$', obr] <:+: kv.2) ∧
      SecretsResolver.matchesPlaceholder kv.2 = false

/-- Characterization of a passing validation. -/
theorem validate_valid {k : List Char} (h : SecretsResolver.validate k = .valid) :
    16 ≤ k.length ∧ ¬ (['$', obr] <:+: k) ∧
      SecretsResolver.matchesPlaceholder k = false := by
  unfold SecretsResolver.validate at h
  split at h
  · exact absurd h (by simp)
  · split at h
    · exact absurd h (by simp)
    · split at h
      · exact absurd h (by simp)
      · next h1 h2 h3 => exact ⟨by omega, h2, by simpa using h3⟩

/-- Successful combined resolution implies a passing validation. -/
theorem resolveAndValidate_ok {env : List Char → Option (List Char)}
    {v k : List Char} (h : SecretsResolver.resolveAndValidate env v = .ok k) :
    SecretsResolver.validate k = .valid := by
  unfold SecretsResolver.resolveAndValidate at h
  split at h
  · exact absurd h (by simp)
  · split at h
    · exact absurd h (by simp)
    · next heq =>
      simp only [Except.ok.injEq] at h
      exact h ▸ heq

/-- Membership after a cache insertion. -/
theorem mem_cacheSet {m : List (List Char × List Char)} {k v : List Char}
    {kv : List Char × List Char} (h : kv ∈ cacheSet m k v) :
    kv ∈ m ∨ kv = (k, v) := by
  unfold cacheSet at h
  split at h
  · obtain ⟨p, hp, hpe⟩ := List.mem_map.mp h
    by_cases hk : p.1 == k
    · right; rw [← hpe, if_pos hk]
    · left; rw [← hpe, if_neg hk]; exact hp
  · rcases List.mem_append.mp h with hm | hm
    · exact Or.inl hm
    · exact Or.inr (List.mem_singleton.mp hm)

/-- Lazy configuration loading never touches the credential cache. -/
theorem getConfigSt_cache {w : World} {st : MgrState} {c : RedmineConfig}
    {st1 : MgrState} (h : getConfigSt w st = .ok (c, st1)) :
    st1.apiKeyCache = st.apiKeyCache := by
  unfold getConfigSt at h
  split at h
  · simp only [Except.ok.injEq, Prod.mk.injEq] at h
    rw [← h.2]
  · split at h
    · exact absurd h (by simp)
    · simp only [Except.ok.injEq, Prod.mk.injEq] at h
      rw [← h.2]

/-- Repository resolution never touches the credential cache. -/
theorem getRepositorySt_cache {w : World} {st : MgrState} {id : Option (List Char)}
    {r : RedmineRepository} {st' : MgrState}
    (h : getRepositorySt w st id = .ok (r, st')) :
    st'.apiKeyCache = st.apiKeyCache := by
  unfold getRepositorySt at h
  split at h
  · exact absurd h (by simp)
  · next cfg st1 heq =>
    split at h
    · exact absurd h (by simp)
    · simp only [Except.ok.injEq, Prod.mk.injEq] at h
      rw [← h.2]
      exact getConfigSt_cache heq

/-- Invariant preservation by a successful credential resolution. -/
theorem getResolvedApiKey_wf {w : World} {st : MgrState} {id : Option (List Char)}
    {k : List Char} {st' : MgrState} (hwf : cacheWf st)
    (h : getResolvedApiKey w st id = .ok (k, st')) : cacheWf st' := by
  unfold getResolvedApiKey at h
  split at h
  · exact absurd h (by simp)
  · next repo st1 hrep =>
    have hc1 : st1.apiKeyCache = st.apiKeyCache := getRepositorySt_cache hrep
    have hwf1 : cacheWf st1 := by intro kv hkv; exact hwf kv (hc1 ▸ hkv)
    split at h
    · simp only [Except.ok.injEq, Prod.mk.injEq] at h
      intro kv hkv
      exact hwf1 kv (h.2 ▸ hkv)
    · split at h
      · exact absurd h (by simp)
      · next resolved hres =>
        simp only [Except.ok.injEq, Prod.mk.injEq] at h
        intro kv hkv
        rw [← h.2] at hkv
        rcases mem_cacheSet hkv with hm | he
        · exact hwf1 kv hm
        · have hv := validate_valid (resolveAndValidate_ok hres)
          rw [he]
          exact hv

/-- Claim C10: the credential-cache invariant — every stored value satisfies
the secret validator (at least 16 characters, no unresolved reference, no
placeholder signature) — is preserved by `getResolvedApiKey`,
`testConnection` and `clearCache`, because only outputs of
`resolveAndValidate` are ever inserted. -/
theorem C10_theorem (w : World) (st : MgrState) (hwf : cacheWf st) :
    (∀ repoId k st', getResolvedApiKey w st repoId = .ok (k, st') → cacheWf st') ∧
    (∀ repoId probe elapsed res st',
      testConnection w st repoId probe elapsed = .ok (res, st') → cacheWf st') ∧
    cacheWf (clearCache st) := by
  refine ⟨fun repoId k st' h => getResolvedApiKey_wf hwf h, ?_, ?_⟩
  · intro repoId probe elapsed res st' h
    unfold testConnection at h
    split at h
    · exact absurd h (by simp)
    · next repo st1 hrep =>
      have hc1 : st1.apiKeyCache = st.apiKeyCache := getRepositorySt_cache hrep
      have hwf1 : cacheWf st1 := by intro kv hkv; exact hwf kv (hc1 ▸ hkv)
      split at h
      · exact absurd h (by simp)
      · next apiKey st2 hkey =>
        have hwf2 : cacheWf st2 := getResolvedApiKey_wf hwf1 hkey
        split at h <;>
          (simp only [Except.ok.injEq, Prod.mk.injEq] at h
           intro kv hkv
           exact hwf2 kv (h.2 ▸ hkv))
  · intro kv hkv
    exact absurd hkv (List.not_mem_nil kv)

/-- Collaborator bundle used by the claim C10 witness: everything absent. -/
def wEmptyWorld : World :=
  { env := fun _ => none, fs := fun _ => none,
    parseJson := fun _ => .error [], urlValid := fun _ => true,
    cwd := str ("/work"), homedir := str ("/home/user") }

/-- Manager state used by the claim C10 witness: configuration loaded, cache
empty. -/
def wLoadedState : MgrState := { config := some wCfg, apiKeyCache := [] }

/-- Claim C10, witness: the invariant theorem applied to a concrete world and
a loaded state with an empty (hence trivially well-formed) cache. -/
theorem C10_witness :
    (∀ repoId k st', getResolvedApiKey wEmptyWorld wLoadedState repoId = .ok (k, st') →
      cacheWf st') ∧
    (∀ repoId probe elapsed res st',
      testConnection wEmptyWorld wLoadedState repoId probe elapsed = .ok (res, st') →
      cacheWf st') ∧
    cacheWf (clearCache wLoadedState) :=
  C10_theorem wEmptyWorld wLoadedState
    (by intro kv hkv; exact absurd hkv (List.not_mem_nil kv))

/-! Claim C9: environment-variable resolution of placeholder templates.
An input string referencing placeholders is presented through its canonical
decomposition: literal chunks (free of any placeholder opener) alternating
with `$\x7bVAR\x7d` occurrences, followed by a final chunk containing no
complete placeholder. -/

namespace SecretsResolver

/-- Absence of a placeholder opener (a `$` immediately followed by an open
brace) anywhere in the chunk. -/
def noPhStart : List Char → Bool
  | '$' :: b :: rest1 => !(b = obr) && noPhStart (b :: rest1)
  | _ :: rest => noPhStart rest
  | [] => true
termination_by l => l.length
decreasing_by all_goals simp_arith

/-- Reconstruction of the input string from its decomposition: each pair
`(lit, v)` contributes `lit` followed by the placeholder `$\x7bv\x7d`. -/
def renderTpl : List (List Char × List Char) → List Char → List Char
  | [], tail => tail
  | (lit, v) :: rest, tail => lit ++ '$' :: obr :: (v ++ cbr :: renderTpl rest tail)

/-- Expected resolver output: each placeholder replaced by its environment
value when set, kept verbatim when unset. -/
def renderOut (env : List Char → Option (List Char)) :
    List (List Char × List Char) → List Char → List Char
  | [], tail => tail
  | (lit, v) :: rest, tail =>
    lit ++ (env v).getD ('$' :: obr :: (v ++ [cbr])) ++ renderOut env rest tail

/-- Referenced variables that are unset, in order of occurrence. -/
def missingOf (env : List Char → Option (List Char))
    (parts : List (List Char × List Char)) : List (List Char) :=
  (parts.map (fun lv => lv.2)).filter (fun v => (env v).isNone)

theorem noPhStart_cons_ne {c : Char} {rest : List Char} (hc : c ≠ '$') :
    noPhStart (c :: rest) = noPhStart rest := by
  rw [noPhStart.eq_def]
  split
  · next heq => rw [List.cons.injEq] at heq; exact absurd heq.1 hc
  · next a b heq => rw [List.cons.injEq] at heq; rw [heq.2]
  · next heq => exact absurd heq (by simp)

theorem noPhStart_dollar {b : Char} {rest1 : List Char} :
    noPhStart ('$' :: b :: rest1) = (!(b = obr) && noPhStart (b :: rest1)) := by
  simp [noPhStart]

theorem resolveScan_cons_ne {env : List Char → Option (List Char)} {c : Char}
    {rest : List Char} (hc : c ≠ '$') :
    resolveScan env (c :: rest)
      = (c :: (resolveScan env rest).1, (resolveScan env rest).2) := by
  rw [resolveScan.eq_def]
  split
  · next heq => rw [List.cons.injEq] at heq; exact absurd heq.1 hc
  · next a b heq => rw [List.cons.injEq] at heq; rw [heq.1, heq.2]
  · next heq => exact absurd heq (by simp)

theorem resolveScan_dollar_ne {env : List Char → Option (List Char)} {b : Char}
    {rest1 : List Char} (hb : b ≠ obr) :
    resolveScan env ('$' :: b :: rest1)
      = ('$' :: (resolveScan env (b :: rest1)).1, (resolveScan env (b :: rest1)).2) := by
  rw [resolveScan.eq_def]
  simp [hb]

theorem resolveScan_ph {env : List Char → Option (List Char)}
    {rest1 name rest2 : List Char} (h : splitBrace rest1 = some (name, rest2)) :
    resolveScan env ('$' :: obr :: rest1)
      = (match env name with
         | some v => (v ++ (resolveScan env rest2).1, (resolveScan env rest2).2)
         | none => ('$' :: obr :: (name ++ cbr :: (resolveScan env rest2).1),
                    name :: (resolveScan env rest2).2)) := by
  have main : ∀ z : List Char × List (List Char),
      (match env name with
       | some v => (v ++ (resolveScan env rest2).1, (resolveScan env rest2).2)
       | none => ('$' :: obr :: (name ++ cbr :: (resolveScan env rest2).1),
                  name :: (resolveScan env rest2).2)) = z →
      resolveScan env ('$' :: obr :: rest1) = z := by
    intro z hz
    rw [resolveScan.eq_def]
    split
    · next b2 r2 heq =>
      simp only [List.cons.injEq, true_and] at heq
      obtain ⟨hb2, hr2⟩ := heq
      subst hb2
      subst hr2
      rw [if_pos rfl]
      split
      · next n2 r3 heq2 =>
        rw [h] at heq2
        simp only [Option.some.injEq, Prod.mk.injEq] at heq2
        obtain ⟨h1, h2⟩ := heq2
        subst h1
        subst h2
        exact hz
      · next heq2 => rw [h] at heq2; exact absurd heq2 (by simp)
    · next hd tl hside heq =>
      rw [List.cons.injEq] at heq
      exact (hside obr rest1 heq.1.symm heq.2.symm).elim
    · next heq => exact absurd heq (by simp)
  exact main _ rfl

theorem hasPh_cons_of {c : Char} {t : List Char} (h : hasPh t = true) :
    hasPh (c :: t) = true := by
  rw [hasPh.eq_def]
  split
  · next b rest1 heq =>
    rw [List.cons.injEq] at heq
    rw [← heq.2, h]
    simp
  · next hd tl hside heq =>
    rw [List.cons.injEq] at heq
    rw [← heq.2]
    exact h
  · next heq => exact absurd heq (by simp)

theorem hasPh_append_ph {rest1 : List Char} (hsb : (splitBrace rest1).isSome) :
    ∀ l : List Char, hasPh (l ++ '$' :: obr :: rest1) = true := by
  intro l
  induction l with
  | nil =>
    rw [List.nil_append, hasPh.eq_def]
    simp [hsb]
  | cons c lt ih => exact hasPh_cons_of ih

theorem takeWhile_all_append {p : Char → Bool} {l : List Char} (r : List Char)
    (h : ∀ c ∈ l, p c = true) : (l ++ r).takeWhile p = l ++ r.takeWhile p := by
  induction l with
  | nil => rfl
  | cons c lt ih =>
    have hc : p c = true := h c (List.mem_cons_self c lt)
    have hrest := ih (fun x hx => h x (List.mem_cons_of_mem c hx))
    simp [List.takeWhile_cons, hc, hrest]

theorem dropWhile_all_append {p : Char → Bool} {l : List Char} (r : List Char)
    (h : ∀ c ∈ l, p c = true) : (l ++ r).dropWhile p = r.dropWhile p := by
  induction l with
  | nil => rfl
  | cons c lt ih =>
    have hc : p c = true := h c (List.mem_cons_self c lt)
    have hrest := ih (fun x hx => h x (List.mem_cons_of_mem c hx))
    simp [List.dropWhile_cons, hc, hrest]

/-- The brace splitter recovers a well-formed placeholder body exactly. -/
theorem splitBrace_of_shape {v r : List Char} (hv : v ≠ []) (hbr : cbr ∉ v) :
    splitBrace (v ++ cbr :: r) = some (v, r) := by
  have hall : ∀ c ∈ v, (c ≠ cbr : Bool) = true := by
    intro c hc
    simp only [ne_eq, decide_eq_true_eq]
    intro he
    exact hbr (he ▸ hc)
  have htk : (v ++ cbr :: r).takeWhile (· ≠ cbr) = v := by
    rw [takeWhile_all_append (cbr :: r) hall]
    simp [List.takeWhile_cons]
  have hdr : (v ++ cbr :: r).dropWhile (· ≠ cbr) = cbr :: r := by
    rw [dropWhile_all_append (cbr :: r) hall]
    simp [List.dropWhile_cons]
  unfold splitBrace
  rw [htk, hdr]
  simp [hv]

theorem resolveScan_ph_none {env : List Char → Option (List Char)}
    {rest1 : List Char} (h : splitBrace rest1 = none) :
    resolveScan env ('$' :: obr :: rest1)
      = ('$' :: (resolveScan env (obr :: rest1)).1, (resolveScan env (obr :: rest1)).2) := by
  rw [resolveScan.eq_def]
  split
  · next b2 r2 heq =>
    simp only [List.cons.injEq, true_and] at heq
    obtain ⟨hb2, hr2⟩ := heq
    subst hb2
    subst hr2
    rw [if_pos rfl]
    split
    · next n2 r3 heq2 => rw [h] at heq2; exact absurd heq2 (by simp)
    · rfl
  · next hd tl hside heq =>
    rw [List.cons.injEq] at heq
    exact (hside obr rest1 heq.1.symm heq.2.symm).elim
  · next heq => exact absurd heq (by simp)

theorem hasPh_cons_ne {c : Char} {rest : List Char} (hc : c ≠ '$') :
    hasPh (c :: rest) = hasPh rest := by
  rw [hasPh.eq_def]
  split
  · next heq => rw [List.cons.injEq] at heq; exact absurd heq.1 hc
  · next a b heq => rw [List.cons.injEq] at heq; rw [heq.2]
  · next heq => exact absurd heq (by simp)

/-- A string with no complete placeholder scans to itself with nothing
missing. -/
theorem resolveScan_no_ph {env : List Char → Option (List Char)} :
    ∀ {t : List Char}, hasPh t = false → resolveScan env t = (t, []) := by
  intro t
  induction t using hasPh.induct with
  | case1 b rest1 ih =>
    intro h
    rw [hasPh.eq_def] at h
    simp only [Bool.or_eq_false_iff, Bool.and_eq_false_iff] at h
    by_cases hb : b = obr
    · subst hb
      have hsb : (splitBrace rest1).isSome = false := by
        rcases h.1 with h1 | h1
        · simp at h1
        · exact h1
      have hnone : splitBrace rest1 = none := by
        rcases hs : splitBrace rest1 with _ | pr
        · rfl
        · rw [hs] at hsb; simp at hsb
      rw [resolveScan_ph_none hnone, ih h.2]
    · rw [resolveScan_dollar_ne hb, ih h.2]
  | case2 c rest hne ih =>
    intro h
    by_cases hc : c = '$'
    · subst hc
      cases rest with
      | nil => simp [resolveScan]
      | cons b rest1 => exact (hne b rest1 rfl rfl).elim
    · rw [resolveScan_cons_ne hc, ih (by rw [← hasPh_cons_ne hc]; exact h)]
  | case3 =>
    intro _
    simp [resolveScan]

/-- Scanning walks over a chunk with no placeholder opener unchanged, up to
the next dollar sign. -/
theorem resolveScan_lit_append {env : List Char → Option (List Char)} :
    ∀ {lit : List Char} (r : List Char), noPhStart lit = true →
      resolveScan env (lit ++ '$' :: r)
        = (lit ++ (resolveScan env ('$' :: r)).1, (resolveScan env ('$' :: r)).2) := by
  intro lit
  induction lit with
  | nil => intro r _; simp
  | cons c lt ih =>
    intro r hnps
    by_cases hc : c = '$'
    · subst hc
      cases lt with
      | nil =>
        simp only [List.cons_append, List.nil_append]
        rw [resolveScan_dollar_ne (by decide : ('$' : Char) ≠ obr)]
      | cons b lt2 =>
        rw [noPhStart_dollar] at hnps
        simp only [Bool.and_eq_true, Bool.not_eq_eq_eq_not, Bool.not_true,
          decide_eq_false_iff_not] at hnps
        simp only [List.cons_append]
        rw [resolveScan_dollar_ne hnps.1]
        have := ih r hnps.2
        simp only [List.cons_append] at this
        rw [this]
    · rw [List.cons_append, resolveScan_cons_ne hc,
        ih r (by rwa [noPhStart_cons_ne hc] at hnps)]
      simp

/-- Full computation of the scanner on a decomposed template: the output is
`renderOut` and the missing list is exactly the unset referenced variables in
order of occurrence. -/
theorem resolveScan_renderTpl (env : List Char → Option (List Char)) :
    ∀ (parts : List (List Char × List Char)) (tail : List Char),
      (∀ lv ∈ parts, noPhStart lv.1 = true ∧ lv.2 ≠ [] ∧ cbr ∉ lv.2) →
      hasPh tail = false →
      resolveScan env (renderTpl parts tail)
        = (renderOut env parts tail, missingOf env parts) := by
  intro parts
  induction parts with
  | nil =>
    intro tail _ htail
    simpa [renderTpl, renderOut, missingOf] using resolveScan_no_ph htail
  | cons lv rest ih =>
    intro tail hcond htail
    obtain ⟨lit, v⟩ := lv
    have hl : noPhStart lit = true := (hcond (lit, v) (List.mem_cons_self _ _)).1
    have hv1 : v ≠ [] := (hcond (lit, v) (List.mem_cons_self _ _)).2.1
    have hv2 : cbr ∉ v := (hcond (lit, v) (List.mem_cons_self _ _)).2.2
    have hrest := fun x hx => hcond x (List.mem_cons_of_mem (lit, v) hx)
    show resolveScan env (lit ++ '$' :: obr :: (v ++ cbr :: renderTpl rest tail)) = _
    rw [resolveScan_lit_append _ hl, resolveScan_ph (splitBrace_of_shape hv1 hv2),
      ih tail hrest htail]
    cases henv : env v with
    | some val => simp [renderOut, missingOf, henv, List.append_assoc]
    | none => simp [renderOut, missingOf, henv, List.append_assoc]

/-- Claim C9: for every input string referencing one or more placeholders —
presented by its canonical decomposition into opener-free literal chunks,
`$\x7bVAR\x7d` occurrences, and a final chunk with no complete placeholder —
`resolve` fails with a single error message enumerating every missing
variable name (each missing name occurs in the message) when any referenced
variable is unset, and succeeds with every placeholder replaced by exactly
its variable's value (`renderOut`) when all are set. -/
theorem C9_theorem (env : List Char → Option (List Char))
    (parts : List (List Char × List Char)) (tail : List Char)
    (hparts : parts ≠ [])
    (hcond : ∀ lv ∈ parts, noPhStart lv.1 = true ∧ lv.2 ≠ [] ∧ cbr ∉ lv.2)
    (htail : hasPh tail = false) :
    (missingOf env parts = [] →
      resolve env (renderTpl parts tail) = .ok (renderOut env parts tail)) ∧
    (missingOf env parts ≠ [] →
      resolve env (renderTpl parts tail) = .error (missingMsg (missingOf env parts)) ∧
      ∀ v ∈ missingOf env parts, v <:+: missingMsg (missingOf env parts)) := by
  obtain ⟨⟨lit, v⟩, rest, rfl⟩ : ∃ lv rest, parts = lv :: rest := by
    cases parts with
    | nil => exact absurd rfl hparts
    | cons lv rest => exact ⟨lv, rest, rfl⟩
  have hv1 : v ≠ [] := (hcond (lit, v) (List.mem_cons_self _ _)).2.1
  have hv2 : cbr ∉ v := (hcond (lit, v) (List.mem_cons_self _ _)).2.2
  have hscan := resolveScan_renderTpl env ((lit, v) :: rest) tail hcond htail
  have hne : renderTpl ((lit, v) :: rest) tail ≠ [] := by
    show lit ++ '$' :: obr :: (v ++ cbr :: renderTpl rest tail) ≠ []
    simp
  have hhas : hasPh (renderTpl ((lit, v) :: rest) tail) = true := by
    show hasPh (lit ++ '$' :: obr :: (v ++ cbr :: renderTpl rest tail)) = true
    exact hasPh_append_ph (by rw [splitBrace_of_shape hv1 hv2]; rfl) lit
  constructor
  · intro hmiss
    unfold resolve
    rw [if_neg hne, if_neg (by rw [hhas]; simp), hscan]
    simp [hmiss]
  · intro hmiss
    constructor
    · unfold resolve
      rw [if_neg hne, if_neg (by rw [hhas]; simp), hscan]
      simp [hmiss]
    · intro x hx
      have h1 : x <:+: joinSep (str (", ")) (missingOf env ((lit, v) :: rest)) :=
        mem_infix_joinSep _ hx
      unfold missingMsg
      exact (h1.trans (List.suffix_append _ _).isInfix).trans
        (List.prefix_append _ _).isInfix

/-- Environment used by the claim C9 witness. -/
def wEnv (n : List Char) : Option (List Char) :=
  if n = str ("REDMINE_API_KEY") then some (str ("legacy_key_1234567890")) else none

/-- Decomposition of the template `$\x7bREDMINE_API_KEY\x7d` used by the
claim C9 witness: one placeholder, empty literal chunks. -/
def wParts : List (List Char × List Char) := [([], str ("REDMINE_API_KEY"))]

/-- Claim C9, witness: the resolution theorem applied to the concrete
one-placeholder template under an environment where the variable is set. -/
theorem C9_witness :
    (missingOf wEnv wParts = [] →
      resolve wEnv (renderTpl wParts []) = .ok (renderOut wEnv wParts [])) ∧
    (missingOf wEnv wParts ≠ [] →
      resolve wEnv (renderTpl wParts []) = .error (missingMsg (missingOf wEnv wParts)) ∧
      ∀ v ∈ missingOf wEnv wParts, v <:+: missingMsg (missingOf wEnv wParts)) :=
  C9_theorem wEnv wParts [] (by decide)
    (by
      intro lv hlv
      fin_cases hlv
      exact ⟨by simp [noPhStart], by decide, by decide⟩)
    (by simp [hasPh])

/-! Machinery for claims C6 and C1: behaviour of the literal global
replacement performed by `redactFromText`. -/

/-- Literal-replacement specialization of `replaceAux`: when the replacement
string contains no dollar sign, `String.prototype.replace` inserts it
verbatim, so the before/after context plays no role. -/
def replaceLit (p : Char) (pr rep : List Char) : List Char → List Char
  | [] => []
  | c :: t =>
    if (p :: pr).isPrefixOf (c :: t) then
      rep ++ replaceLit p pr rep (t.drop pr.length)
    else c :: replaceLit p pr rep t
termination_by l => l.length
decreasing_by all_goals simp_arith

theorem replaceLit_nil {p : Char} {pr rep : List Char} :
    replaceLit p pr rep [] = [] := by
  rw [replaceLit.eq_def]

theorem replaceLit_cons {p : Char} {pr rep : List Char} {c : Char} {t : List Char} :
    replaceLit p pr rep (c :: t)
      = if (p :: pr).isPrefixOf (c :: t) then
          rep ++ replaceLit p pr rep (t.drop pr.length)
        else c :: replaceLit p pr rep t := by
  rw [replaceLit.eq_def]

theorem replaceAux_nil {p : Char} {pr rep pre : List Char} :
    replaceAux p pr rep pre [] = [] := by
  rw [replaceAux.eq_def]

theorem replaceAux_cons {p : Char} {pr rep pre : List Char} {c : Char} {t : List Char} :
    replaceAux p pr rep pre (c :: t)
      = if (p :: pr).isPrefixOf (c :: t) then
          expandRep (p :: pr) pre (t.drop pr.length) rep ++
            replaceAux p pr rep (pre ++ p :: pr) (t.drop pr.length)
        else c :: replaceAux p pr rep (pre ++ [c]) t := by
  rw [replaceAux.eq_def]

theorem expandRep_cons_ne {m pre after : List Char} {c : Char} {rest : List Char}
    (hc : c ≠ '$') :
    expandRep m pre after (c :: rest) = c :: expandRep m pre after rest := by
  cases rest with
  | nil => simp [expandRep, hc]
  | cons b r =>
    rw [expandRep.eq_def]
    split
    · next heq => rw [List.cons.injEq] at heq; exact absurd heq.1 hc
    · next heq => rw [List.cons.injEq] at heq; exact absurd heq.1 hc
    · next heq => rw [List.cons.injEq] at heq; exact absurd heq.1 hc
    · next heq => rw [List.cons.injEq] at heq; exact absurd heq.1 hc
    · next a rest2 hside heq =>
      rw [List.cons.injEq] at heq
      rw [← heq.1, ← heq.2]
    · next heq => exact absurd heq (by simp)

/-- A dollar-free replacement string expands to itself. -/
theorem expandRep_no_dollar {m pre after : List Char} :
    ∀ {rep : List Char}, '$' ∉ rep → expandRep m pre after rep = rep := by
  intro rep
  induction rep with
  | nil => intro _; rfl
  | cons c rest ih =>
    intro h
    have hc : c ≠ '$' := fun he => h (he ▸ List.mem_cons_self c rest)
    rw [expandRep_cons_ne hc, ih (fun hm => h (List.mem_cons_of_mem c hm))]

/-- With a dollar-free replacement, the context-tracking replacement agrees
with the literal one. -/
theorem replaceAux_eq_lit {p : Char} {pr rep : List Char} (hrep : '$' ∉ rep) :
    ∀ (N : Nat) (s pre : List Char), s.length ≤ N →
      replaceAux p pr rep pre s = replaceLit p pr rep s := by
  intro N
  induction N with
  | zero =>
    intro s pre hs
    have : s = [] := List.length_eq_zero.mp (Nat.le_zero.mp hs)
    subst this
    rw [replaceAux_nil, replaceLit_nil]
  | succ N ihN =>
    intro s pre hs
    cases s with
    | nil => rw [replaceAux_nil, replaceLit_nil]
    | cons c t =>
      rw [replaceAux_cons, replaceLit_cons]
      by_cases hpf : (p :: pr).isPrefixOf (c :: t)
      · rw [if_pos hpf, if_pos hpf, expandRep_no_dollar hrep,
          ihN (t.drop pr.length) (pre ++ p :: pr)
            (by simp only [List.length_cons] at hs; simp only [List.length_drop]; omega)]
      · rw [if_neg hpf, if_neg hpf,
          ihN t (pre ++ [c]) (by simp only [List.length_cons] at hs; omega)]

/-- Decomposition of a prefix of an append. -/
theorem prefix_append_cases {l a b : List Char} (h : l <+: a ++ b) :
    l <+: a ∨ ∃ b1, b1 <+: b ∧ l = a ++ b1 := by
  induction a generalizing l with
  | nil => exact Or.inr ⟨l, by simpa using h, by simp⟩
  | cons x a2 ih =>
    cases l with
    | nil => exact Or.inl List.nil_prefix
    | cons y l2 =>
      rw [List.cons_append, List.cons_prefix_cons] at h
      obtain ⟨rfl, h2⟩ := h
      rcases ih h2 with h3 | ⟨b1, hb1, rfl⟩
      · exact Or.inl (List.cons_prefix_cons.mpr ⟨rfl, h3⟩)
      · exact Or.inr ⟨b1, hb1, by simp⟩

/-- An infix of a cons either starts at the head or sits in the tail. -/
theorem infix_cons_cases {l : List Char} {x : Char} {xs : List Char}
    (h : l <:+: x :: xs) : l <+: x :: xs ∨ l <:+: xs := by
  obtain ⟨u, v, huv⟩ := h
  cases u with
  | nil => exact Or.inl ⟨v, by simpa using huv⟩
  | cons a u2 =>
    rw [List.cons_append, List.cons_append, List.cons.injEq] at huv
    exact Or.inr ⟨u2, v, huv.2⟩

theorem infix_cons_extend {l : List Char} {x : Char} {xs : List Char}
    (h : l <:+: xs) : l <:+: x :: xs := by
  obtain ⟨u, v, huv⟩ := h
  exact ⟨x :: u, v, by simp [huv]⟩

theorem suffix_cons_extend {l : List Char} {x : Char} {xs : List Char}
    (h : l <:+ xs) : l <:+ x :: xs := by
  obtain ⟨u, hu⟩ := h
  exact ⟨x :: u, by simp [hu]⟩

/-- Decomposition of an infix of an append: inside the left part, inside the
right part, or spanning the seam. -/
theorem infix_append_cases {l a b : List Char} (h : l <:+: a ++ b) :
    l <:+: a ∨ l <:+: b ∨
      ∃ a2 b1, a2 ≠ [] ∧ b1 ≠ [] ∧ l = a2 ++ b1 ∧ a2 <:+ a ∧ b1 <+: b := by
  induction a generalizing l with
  | nil => exact Or.inr (Or.inl (by simpa using h))
  | cons x a2 ih =>
    rw [List.cons_append] at h
    rcases infix_cons_cases h with hp | hi
    · rw [← List.cons_append] at hp
      rcases prefix_append_cases hp with h1 | ⟨b1, hb1, rfl⟩
      · exact Or.inl h1.isInfix
      · cases b1 with
        | nil => exact Or.inl (by simpa using List.infix_refl (x :: a2))
        | cons e es =>
          exact Or.inr (Or.inr ⟨x :: a2, e :: es, by simp, by simp, rfl,
            List.suffix_refl _, hb1⟩)
    · rcases ih hi with h1 | h1 | ⟨a3, b1, ha3, hb1, rfl, hsuf, hpre⟩
      · exact Or.inl (infix_cons_extend h1)
      · exact Or.inr (Or.inl h1)
      · exact Or.inr (Or.inr ⟨a3, b1, ha3, hb1, rfl, suffix_cons_extend hsuf, hpre⟩)

theorem mask_cons_le4 {p : Char} {pr : List Char} (h : (p :: pr).length ≤ 4) :
    mask (p :: pr) = str ("****") := by
  unfold mask
  rw [if_neg (by simp), if_pos h]

theorem mask_cons_gt4 {p : Char} {pr : List Char} (h : ¬ (p :: pr).length ≤ 4) :
    mask (p :: pr) = (p :: pr).take 4 ++ str ("***") := by
  unfold mask
  rw [if_neg (by simp), if_neg h]

/-- A nonempty suffix of the pattern that is a prefix of the mask followed by
anything is a prefix of the pattern itself (for an asterisk-free pattern). -/
theorem mask_prefix_static {p : Char} {pr : List Char} (hp : '*' ∉ p :: pr)
    {d X : List Char} (hd : d ≠ []) (hsuf : d <:+ (p :: pr))
    (hpre : d <+: mask (p :: pr) ++ X) : d <+: (p :: pr) := by
  by_cases h4 : (p :: pr).length ≤ 4
  · rw [mask_cons_le4 h4] at hpre
    obtain ⟨dh, dt, rfl⟩ : ∃ dh dt, d = dh :: dt := by
      cases d with
      | nil => exact absurd rfl hd
      | cons dh dt => exact ⟨dh, dt, rfl⟩
    have hshape : str ("****") ++ X = '*' :: (str ("***") ++ X) := rfl
    rw [hshape, List.cons_prefix_cons] at hpre
    have hmem : dh ∈ (p :: pr) := hsuf.subset (List.mem_cons_self dh dt)
    rw [hpre.1] at hmem
    exact absurd hmem hp
  · rw [mask_cons_gt4 h4] at hpre
    have hlen4 : ((p :: pr).take 4).length = 4 := by
      simp only [List.length_take]
      omega
    have htk := List.prefix_iff_eq_take.mp hpre
    by_cases hdl : d.length ≤ 4
    · have hcalc : ((p :: pr).take 4 ++ str ("***") ++ X).take d.length
          = (p :: pr).take d.length := by
        rw [List.append_assoc, List.take_append_eq_append_take, hlen4]
        have h0 : d.length - 4 = 0 := by omega
        rw [h0, List.take_take, List.take_zero, List.append_nil]
        have hmin : min d.length 4 = d.length := by omega
        rw [hmin]
      rw [htk, hcalc]
      exact List.take_prefix _ _
    · exfalso
      have hstar : '*' ∈ d.take 5 := by
        have h5 : d.take 5 = ((p :: pr).take 4 ++ str ("***") ++ X).take 5 := by
          rw [htk, List.take_take]
          have hmin : min 5 d.length = 5 := by omega
          rw [hmin]
        have hcalc : ((p :: pr).take 4 ++ str ("***") ++ X).take 5
            = (p :: pr).take 4 ++ ['*'] := by
          rw [List.append_assoc, List.take_append_eq_append_take, hlen4]
          have h1 : (5 : Nat) - 4 = 1 := by omega
          rw [h1, List.take_take]
          have hmin : min 5 (4 : Nat) = 4 := by omega
          rw [hmin]
          have : (str ("***") ++ X).take 1 = ['*'] := rfl
          rw [this]
        rw [h5, hcalc]
        exact List.mem_append_right _ (List.mem_singleton.mpr rfl)
      have : '*' ∈ (p :: pr) := hsuf.subset ((List.take_sublist 5 d).subset hstar)
      exact hp this

/-- An asterisk-free pattern is never an infix of its own mask. -/
theorem mask_not_infix {p : Char} {pr : List Char} (hp : '*' ∉ p :: pr) :
    ¬ (p :: pr) <:+: mask (p :: pr) := by
  intro h
  have hcount : (p :: pr).countP (fun c => c ≠ '*')
      ≤ (mask (p :: pr)).countP (fun c => c ≠ '*') :=
    h.sublist.countP_le _
  have hpatc : (p :: pr).countP (fun c => c ≠ '*') = (p :: pr).length := by
    rw [List.countP_eq_length]
    intro a ha
    simp only [ne_eq, decide_eq_true_eq]
    intro he
    exact hp (he ▸ ha)
  by_cases h4 : (p :: pr).length ≤ 4
  · rw [mask_cons_le4 h4] at hcount
    have hz : (str ("****")).countP (fun c => c ≠ '*') = 0 := by decide
    rw [hz, hpatc] at hcount
    simp at hcount
  · rw [mask_cons_gt4 h4, List.countP_append] at hcount
    have h1 : ((p :: pr).take 4).countP (fun c => c ≠ '*') ≤ 4 :=
      le_trans (List.countP_le_length _) (by simp [List.length_take])
    have h2 : (str ("***")).countP (fun c => c ≠ '*') = 0 := by decide
    rw [hpatc, h2] at hcount
    omega

theorem mask_reverse_cons {p : Char} {pr : List Char} :
    ∃ rst, (mask (p :: pr)).reverse = '*' :: rst := by
  by_cases h4 : (p :: pr).length ≤ 4
  · rw [mask_cons_le4 h4]
    exact ⟨['*', '*', '*'], by decide⟩
  · rw [mask_cons_gt4 h4, List.reverse_append]
    refine ⟨['*', '*'] ++ ((p :: pr).take 4).reverse, ?_⟩
    have hs : (str ("***")).reverse = ['*', '*', '*'] := by decide
    rw [hs]
    rfl

/-- Every nonempty suffix of the mask contains an asterisk. -/
theorem star_mem_suffix_mask {p : Char} {pr a2 : List Char}
    (ha : a2 <:+ mask (p :: pr)) (hne : a2 ≠ []) : '*' ∈ a2 := by
  have hrev : a2.reverse <+: (mask (p :: pr)).reverse := List.reverse_prefix.mpr ha
  obtain ⟨rst, hm⟩ := @mask_reverse_cons p pr
  rw [hm] at hrev
  cases hr : a2.reverse with
  | nil => exact absurd (by simpa using congrArg List.reverse hr) hne
  | cons e es =>
    rw [hr, List.cons_prefix_cons] at hrev
    have : e ∈ a2.reverse := by rw [hr]; exact List.mem_cons_self e es
    rw [hrev.1] at this
    exact List.mem_reverse.mp this

/-- The mask of a dollar-free secret is dollar-free. -/
theorem mask_no_dollar {p : Char} {pr : List Char} (hd : '$' ∉ (p :: pr)) :
    '$' ∉ mask (p :: pr) := by
  intro h
  by_cases h4 : (p :: pr).length ≤ 4
  · rw [mask_cons_le4 h4] at h
    exact absurd h (by decide)
  · rw [mask_cons_gt4 h4] at h
    rcases List.mem_append.mp h with hm | hm
    · exact hd ((List.take_sublist 4 (p :: pr)).subset hm)
    · exact absurd hm (by decide)

/-- Prefix reflection through the literal replacement: a nonempty suffix of
the (asterisk-free) pattern that is a prefix of the replacement output is a
prefix of the input. -/
theorem replaceLit_prefix_reflect {p : Char} {pr : List Char} (hp : '*' ∉ p :: pr) :
    ∀ (N : Nat) (s d : List Char), s.length ≤ N → d ≠ [] → d <:+ (p :: pr) →
      d <+: replaceLit p pr (mask (p :: pr)) s → d <+: s := by
  intro N
  induction N with
  | zero =>
    intro s d hs hd _ hpre
    have : s = [] := List.length_eq_zero.mp (Nat.le_zero.mp hs)
    subst this
    rw [replaceLit_nil] at hpre
    exact absurd (List.prefix_nil.mp hpre) hd
  | succ N ihN =>
    intro s d hs hd hsuf hpre
    cases s with
    | nil =>
      rw [replaceLit_nil] at hpre
      exact absurd (List.prefix_nil.mp hpre) hd
    | cons c t =>
      rw [replaceLit_cons] at hpre
      by_cases hpf : (p :: pr).isPrefixOf (c :: t)
      · rw [if_pos hpf] at hpre
        exact (mask_prefix_static hp hd hsuf hpre).trans
          (List.isPrefixOf_iff_prefix.mp hpf)
      · rw [if_neg hpf] at hpre
        obtain ⟨dh, dt, rfl⟩ : ∃ dh dt, d = dh :: dt := by
          cases d with
          | nil => exact absurd rfl hd
          | cons dh dt => exact ⟨dh, dt, rfl⟩
        rw [List.cons_prefix_cons] at hpre
        obtain ⟨rfl, hdt⟩ := hpre
        cases dt with
        | nil => exact ⟨t, rfl⟩
        | cons e es =>
          have hdt_suf : (e :: es) <:+ (p :: pr) := by
            obtain ⟨u, hu⟩ := hsuf
            exact ⟨u ++ [dh], by simpa using hu⟩
          have hih := ihN t (e :: es) (by simp only [List.length_cons] at hs; omega)
            (by simp) hdt_suf hdt
          exact List.cons_prefix_cons.mpr ⟨rfl, hih⟩

/-- The asterisk-free pattern never occurs in the literal replacement
output. -/
theorem replaceLit_not_infix {p : Char} {pr : List Char} (hp : '*' ∉ p :: pr) :
    ∀ (N : Nat) (s : List Char), s.length ≤ N →
      ¬ (p :: pr) <:+: replaceLit p pr (mask (p :: pr)) s := by
  intro N
  induction N with
  | zero =>
    intro s hs hinf
    have : s = [] := List.length_eq_zero.mp (Nat.le_zero.mp hs)
    subst this
    rw [replaceLit_nil] at hinf
    exact absurd (List.infix_nil.mp hinf) (by simp)
  | succ N ihN =>
    intro s hs hinf
    cases s with
    | nil =>
      rw [replaceLit_nil] at hinf
      exact absurd (List.infix_nil.mp hinf) (by simp)
    | cons c t =>
      rw [replaceLit_cons] at hinf
      by_cases hpf : (p :: pr).isPrefixOf (c :: t)
      · rw [if_pos hpf] at hinf
        rcases infix_append_cases hinf with h1 | h1 | ⟨a2, b1, ha2, hb1, heq, hsuf, hb1p⟩
        · exact mask_not_infix hp h1
        · exact ihN (t.drop pr.length)
            (by simp only [List.length_cons] at hs; simp only [List.length_drop]; omega) h1
        · have : '*' ∈ (p :: pr) := by
            rw [heq]
            exact List.mem_append_left b1 (star_mem_suffix_mask hsuf ha2)
          exact hp this
      · rw [if_neg hpf] at hinf
        rcases infix_cons_cases hinf with h1 | h1
        · have : (p :: pr) <+: (c :: t) := by
            have hlit : replaceLit p pr (mask (p :: pr)) (c :: t)
                = c :: replaceLit p pr (mask (p :: pr)) t := by
              rw [replaceLit_cons, if_neg hpf]
            rw [← hlit] at h1
            exact replaceLit_prefix_reflect hp (c :: t).length (c :: t) (p :: pr)
              (Nat.le_refl _) (by simp) (List.suffix_refl _) h1
          exact hpf (List.isPrefixOf_iff_prefix.mpr this)
        · exact ihN t (by simp only [List.length_cons] at hs; omega) h1

/-- Whenever the pattern occurs in the input, its mask occurs in the literal
replacement output. -/
theorem replaceLit_mask_infix {p : Char} {pr : List Char} :
    ∀ (N : Nat) (s : List Char), s.length ≤ N → (p :: pr) <:+: s →
      mask (p :: pr) <:+: replaceLit p pr (mask (p :: pr)) s := by
  intro N
  induction N with
  | zero =>
    intro s hs hinf
    have : s = [] := List.length_eq_zero.mp (Nat.le_zero.mp hs)
    subst this
    exact absurd (List.infix_nil.mp hinf) (by simp)
  | succ N ihN =>
    intro s hs hinf
    cases s with
    | nil => exact absurd (List.infix_nil.mp hinf) (by simp)
    | cons c t =>
      rw [replaceLit_cons]
      by_cases hpf : (p :: pr).isPrefixOf (c :: t)
      · rw [if_pos hpf]
        exact (List.prefix_append _ _).isInfix
      · rw [if_neg hpf]
        rcases infix_cons_cases hinf with h1 | h1
        · exact absurd (List.isPrefixOf_iff_prefix.mpr h1) hpf
        · exact infix_cons_extend
            (ihN t (by simp only [List.length_cons] at hs; omega) h1)

/-- Redaction of a single secret, rewritten through the literal
replacement. -/
theorem redactFromText_single {p : Char} {pr text : List Char} (htext : text ≠ [])
    (hd : '$' ∉ (p :: pr)) :
    redactFromText text [p :: pr]
      = replaceLit p pr (mask (p :: pr)) text := by
  unfold redactFromText
  rw [if_neg (by simp [htext])]
  show replaceAux p pr (mask (p :: pr)) [] text = _
  exact replaceAux_eq_lit (mask_no_dollar hd) text.length text [] (Nat.le_refl _)

/-- The raw secret does not occur in the redacted text (asterisk- and
dollar-free secrets). -/
theorem redact_no_secret {secret : List Char} (hne : secret ≠ [])
    (hstar : '*' ∉ secret) (hdollar : '$' ∉ secret) :
    ∀ text, ¬ secret <:+: redactFromText text [secret] := by
  intro text hinf
  obtain ⟨p, pr, rfl⟩ : ∃ p pr, secret = p :: pr := by
    cases secret with
    | nil => exact absurd rfl hne
    | cons p pr => exact ⟨p, pr, rfl⟩
  by_cases htext : text = []
  · subst htext
    rw [show redactFromText [] [p :: pr] = [] from rfl] at hinf
    exact absurd (List.infix_nil.mp hinf) (by simp)
  · rw [redactFromText_single htext hdollar] at hinf
    exact replaceLit_not_infix hstar text.length text (Nat.le_refl _) hinf

/-- The mask occurs in the redacted text whenever the secret occurred in the
original (asterisk- and dollar-free secrets). -/
theorem redact_mask_occurs {secret text : List Char} (hne : secret ≠ [])
    (hdollar : '$' ∉ secret) (hin : secret <:+: text) :
    mask secret <:+: redactFromText text [secret] := by
  obtain ⟨p, pr, rfl⟩ : ∃ p pr, secret = p :: pr := by
    cases secret with
    | nil => exact absurd rfl hne
    | cons p pr => exact ⟨p, pr, rfl⟩
  have htext : text ≠ [] := by
    intro h
    subst h
    exact absurd (List.infix_nil.mp hin) (by simp)
  rw [redactFromText_single htext hdollar]
  exact replaceLit_mask_infix text.length text (Nat.le_refl _) hin

/-! Claim C6: the redaction round trip. -/

/-- Claim C6, counterexample: redaction can reintroduce the raw secret.  For
the secret `*x` occurring in `*xx`, the redacted text `****x` still contains
`*x` (the mask ends in asterisks that recombine with the remaining text);
for the secret `$&aaaaaaaaaaaaaaaa` occurring in itself, the replacement
string machinery of `String.prototype.replace` expands the `$&` inside the
mask to the matched secret, so the redacted text starts with the raw
secret. -/
theorem C6_counterexample :
    (str ("*x") <:+: str ("*xx")) ∧
    redactFromText (str ("*xx")) [str ("*x")] = str ("****x") ∧
    (str ("*x") <:+: str ("****x")) ∧
    (str ("$&aaaaaaaaaaaaaaaa") <:+: str ("$&aaaaaaaaaaaaaaaa")) ∧
    redactFromText (str ("$&aaaaaaaaaaaaaaaa")) [str ("$&aaaaaaaaaaaaaaaa")]
      = str ("$&aaaaaaaaaaaaaaaa") ++ str ("aa***") ∧
    (str ("$&aaaaaaaaaaaaaaaa") <+: str ("$&aaaaaaaaaaaaaaaa") ++ str ("aa***")) := by
  refine ⟨by decide, ?_, by decide, by decide, ?_, List.prefix_append _ _⟩
  · simp [redactFromText, replaceAux, expandRep, mask, str, List.isPrefixOf]
  · simp [redactFromText, replaceAux, expandRep, mask, str, List.isPrefixOf]

/-- Claim C6, amended: for every text and every nonempty secret containing
neither an asterisk nor a dollar sign, if the secret occurs verbatim in the
text then `redactFromText text [secret]` contains zero occurrences of the
raw secret and at least one occurrence of `mask secret`. -/
theorem C6_theorem (text secret : List Char) (hne : secret ≠ [])
    (hstar : '*' ∉ secret) (hdollar : '$' ∉ secret) (hin : secret <:+: text) :
    ¬ (secret <:+: redactFromText text [secret]) ∧
      mask secret <:+: redactFromText text [secret] :=
  ⟨redact_no_secret hne hstar hdollar text, redact_mask_occurs hne hdollar hin⟩

/-- Claim C6, witness: the amended theorem at a concrete secret and text. -/
theorem C6_witness :
    ¬ (str ("topsecretvalue") <:+:
        redactFromText (str ("key: topsecretvalue end")) [str ("topsecretvalue")]) ∧
      mask (str ("topsecretvalue")) <:+:
        redactFromText (str ("key: topsecretvalue end")) [str ("topsecretvalue")] :=
  C6_theorem (str ("key: topsecretvalue end")) (str ("topsecretvalue"))
    (by decide) (by decide) (by decide) (by decide)

end SecretsResolver

/-! Claim C1: no credential leak through the connectivity probe's failure
message. -/

/-- Sufficient conditions for a passing validation. -/
theorem validate_valid_of {k : List Char} (h1 : 16 ≤ k.length)
    (h2 : ¬ (['$', obr] <:+: k)) (h3 : SecretsResolver.matchesPlaceholder k = false) :
    SecretsResolver.validate k = .valid := by
  unfold SecretsResolver.validate
  rw [if_neg (by omega), if_neg h2, if_neg (by simp [h3])]

/-- A cache hit comes from a stored entry. -/
theorem cacheGet_mem {m : List (List Char × List Char)} {k v : List Char}
    (h : cacheGet m k = some v) : ∃ kv ∈ m, kv.2 = v := by
  unfold cacheGet at h
  obtain ⟨p, hp, he⟩ := Option.map_eq_some'.mp h
  exact ⟨p, List.mem_of_find?_eq_some hp, he⟩

/-- Under the cache invariant, every credential returned by
`getResolvedApiKey` passes the validator. -/
theorem getResolvedApiKey_valid {w : World} {st : MgrState} {id : Option (List Char)}
    {k : List Char} {st' : MgrState} (hwf : cacheWf st)
    (h : getResolvedApiKey w st id = .ok (k, st')) :
    SecretsResolver.validate k = .valid := by
  unfold getResolvedApiKey at h
  split at h
  · exact absurd h (by simp)
  · next repo st1 hrep =>
    have hc1 : st1.apiKeyCache = st.apiKeyCache := getRepositorySt_cache hrep
    split at h
    · next c cs hcg =>
      simp only [Except.ok.injEq, Prod.mk.injEq] at h
      obtain ⟨kv, hkv, hkv2⟩ := cacheGet_mem hcg
      have hv := hwf kv (hc1 ▸ hkv)
      rw [← h.1, ← hkv2]
      exact validate_valid_of hv.1 hv.2.1 hv.2.2
    · split at h
      · exact absurd h (by simp)
      · next resolved hres =>
        simp only [Except.ok.injEq, Prod.mk.injEq] at h
        rw [← h.1]
        exact resolveAndValidate_ok hres

/-- Claim C1, amended: for every repository whose credential resolves and
validates, every probe error is captured — `testConnection` returns a
structured failure result instead of throwing — and the message is the fixed
prefix `Connection failed: ` followed by the error text passed through
`redactFromText` with the just-resolved credential; for credentials
containing neither an asterisk nor a dollar sign, that redacted error text
contains zero occurrences of the credential.  (The fixed prefix itself can
recombine with the redacted text, and asterisk or dollar characters in the
credential can defeat the redaction, which is what the counterexample
exhibits.) -/
theorem C1_theorem (w : World) (st : MgrState) (repoId : Option (List Char))
    (errText : List Char) (elapsed : Nat) (res : ConnectionTestResult)
    (st' : MgrState) (hwf : cacheWf st)
    (h : testConnection w st repoId (.error errText) elapsed = .ok (res, st')) :
    res.success = false ∧
    ∃ repo st1 apiKey,
      getRepositorySt w st repoId = .ok (repo, st1) ∧
      getResolvedApiKey w st1 (some repo.id) = .ok (apiKey, st') ∧
      SecretsResolver.validate apiKey = .valid ∧
      res.message = str ("Connection failed: ") ++
        SecretsResolver.redactFromText errText [apiKey] ∧
      ('*' ∉ apiKey → '$' ∉ apiKey →
        ¬ (apiKey <:+: SecretsResolver.redactFromText errText [apiKey])) := by
  unfold testConnection at h
  split at h
  · exact absurd h (by simp)
  · next repo st1 hrep =>
    split at h
    · exact absurd h (by simp)
    · next apiKey st2 hkey =>
      simp only [Except.ok.injEq, Prod.mk.injEq] at h
      obtain ⟨hres, hst⟩ := h
      have hwf1 : cacheWf st1 := by
        intro kv hkv
        exact hwf kv (getRepositorySt_cache hrep ▸ hkv)
      have hval : SecretsResolver.validate apiKey = .valid :=
        getResolvedApiKey_valid hwf1 hkey
      have hne : apiKey ≠ [] := by
        intro he
        rw [he] at hval
        exact absurd hval (by decide)
      refine ⟨by rw [← hres], repo, st1, apiKey, hrep, hst ▸ hkey, hval, by rw [← hres], ?_⟩
      intro hs hd
      exact SecretsResolver.redact_no_secret hne hs hd errText

/-- Repository whose valid credential starts with `d: ` — a suffix of the
fixed message prefix `Connection failed: `. -/
def repoA : RedmineRepository :=
  { id := str ("main"), displayName := str ("Main"),
    url := str ("https://redmine.example.com"),
    apiKey := str ("d: 0123456789abcdef"),
    secretSource := str ("environment"), enabled := true }

/-- Manager state with `repoA` loaded and an empty cache. -/
def stA : MgrState :=
  { config := some { configVersion := str ("1.0"),
                     defaultRepositoryId := some (str ("main")),
                     repositories := [repoA] },
    apiKeyCache := [] }

/-- Repository whose valid credential starts with three asterisks. -/
def repoB : RedmineRepository :=
  { repoA with apiKey := str ("***abcdefghijklm") }

/-- Manager state with `repoB` loaded and an empty cache. -/
def stB : MgrState :=
  { config := some { configVersion := str ("1.0"),
                     defaultRepositoryId := some (str ("main")),
                     repositories := [repoB] },
    apiKeyCache := [] }

/-- Claim C1, counterexample: two probe failures whose structured result
message contains the resolved, validated credential verbatim.  With
credential `d: 0123456789abcdef` and error text `0123456789abcdef`, the
redaction finds no full occurrence and the message prefix `Connection
failed: ` supplies the missing `d: `, so the message contains the
credential.  With credential `***abcdefghijklm` and an error text containing
it, the inserted mask `***a***` recombines with the following text and the
redacted text itself contains the credential. -/
theorem C1_counterexample :
    SecretsResolver.validate (str ("d: 0123456789abcdef")) = .valid ∧
    testConnection wEmptyWorld stA (some (str ("main")))
        (.error (str ("0123456789abcdef"))) 7
      = .ok ({ success := false,
               message := str ("Connection failed: ") ++ str ("0123456789abcdef"),
               responseTimeMs := 7 },
             { config := stA.config,
               apiKeyCache := [(str ("main"), str ("d: 0123456789abcdef"))] }) ∧
    (str ("d: 0123456789abcdef") <:+:
      str ("Connection failed: ") ++ str ("0123456789abcdef")) ∧
    SecretsResolver.validate (str ("***abcdefghijklm")) = .valid ∧
    testConnection wEmptyWorld stB (some (str ("main")))
        (.error (str ("***abcdefghijklmabcdefghijklm"))) 7
      = .ok ({ success := false,
               message := str ("Connection failed: ") ++ str ("***a***abcdefghijklm"),
               responseTimeMs := 7 },
             { config := stB.config,
               apiKeyCache := [(str ("main"), str ("***abcdefghijklm"))] }) ∧
    (str ("***abcdefghijklm") <:+: str ("***a***abcdefghijklm")) := by
  refine ⟨by decide, ?_, by decide, by decide, ?_, by decide⟩
  · have hval : SecretsResolver.validate (str ("d: 0123456789abcdef")) = .valid := by decide
    have hres : SecretsResolver.resolveAndValidate wEmptyWorld.env
        (str ("d: 0123456789abcdef")) = .ok (str ("d: 0123456789abcdef")) := by
      have h1 : SecretsResolver.resolve wEmptyWorld.env (str ("d: 0123456789abcdef"))
          = .ok (str ("d: 0123456789abcdef")) := by
        simp [SecretsResolver.resolve, SecretsResolver.hasPh,
          SecretsResolver.splitBrace, str, wEmptyWorld]
      simp [SecretsResolver.resolveAndValidate, h1, hval]
    have hred : SecretsResolver.redactFromText (str ("0123456789abcdef"))
        [str ("d: 0123456789abcdef")] = str ("0123456789abcdef") := by
      have h1 : SecretsResolver.replaceAux 'd' (str (": 0123456789abcdef"))
          (SecretsResolver.mask (str ("d: 0123456789abcdef"))) []
          (str ("0123456789abcdef")) = str ("0123456789abcdef") := by
        simp [SecretsResolver.replaceAux, SecretsResolver.expandRep,
          SecretsResolver.mask, str, List.isPrefixOf]
      simpa [SecretsResolver.redactFromText, str] using h1
    have h1 : getRepositorySt wEmptyWorld stA (some (str ("main")))
        = .ok (repoA, stA) := by decide
    have h2 : getResolvedApiKey wEmptyWorld stA (some repoA.id)
        = .ok (str ("d: 0123456789abcdef"),
               { config := stA.config,
                 apiKeyCache := [(str ("main"), str ("d: 0123456789abcdef"))] }) := by
      simp only [getResolvedApiKey]
      rw [show (some repoA.id : Option (List Char)) = some (str ("main")) from rfl, h1]
      simp [stA, repoA, cacheGet, cacheSet, hres]
    simp only [testConnection, h1, h2]
    simp [hred]
  · have hval : SecretsResolver.validate (str ("***abcdefghijklm")) = .valid := by decide
    have hres : SecretsResolver.resolveAndValidate wEmptyWorld.env
        (str ("***abcdefghijklm")) = .ok (str ("***abcdefghijklm")) := by
      have h1 : SecretsResolver.resolve wEmptyWorld.env (str ("***abcdefghijklm"))
          = .ok (str ("***abcdefghijklm")) := by
        simp [SecretsResolver.resolve, SecretsResolver.hasPh,
          SecretsResolver.splitBrace, str, wEmptyWorld]
      simp [SecretsResolver.resolveAndValidate, h1, hval]
    have hred : SecretsResolver.redactFromText (str ("***abcdefghijklmabcdefghijklm"))
        [str ("***abcdefghijklm")] = str ("***a***abcdefghijklm") := by
      have h1 : SecretsResolver.replaceAux '*' (str ("**abcdefghijklm"))
          (SecretsResolver.mask (str ("***abcdefghijklm"))) []
          (str ("***abcdefghijklmabcdefghijklm")) = str ("***a***abcdefghijklm") := by
        simp [SecretsResolver.replaceAux, SecretsResolver.expandRep,
          SecretsResolver.mask, str, List.isPrefixOf]
      simpa [SecretsResolver.redactFromText, str] using h1
    have h1 : getRepositorySt wEmptyWorld stB (some (str ("main")))
        = .ok (repoB, stB) := by decide
    have h2 : getResolvedApiKey wEmptyWorld stB (some repoB.id)
        = .ok (str ("***abcdefghijklm"),
               { config := stB.config,
                 apiKeyCache := [(str ("main"), str ("***abcdefghijklm"))] }) := by
      simp only [getResolvedApiKey]
      rw [show (some repoB.id : Option (List Char)) = some (str ("main")) from rfl, h1]
      simp [stB, repoB, repoA, cacheGet, cacheSet, hres]
    simp only [testConnection, h1, h2]
    simp [hred]

/-- Claim C1, witness: the amended theorem on a concrete run with a valid,
asterisk- and dollar-free credential and a failing probe. -/
theorem C1_witness :
    ({ success := false,
       message := str ("Connection failed: ") ++ str ("boom"),
       responseTimeMs := 5 } : ConnectionTestResult).success = false ∧
    ∃ repo st1 apiKey,
      getRepositorySt wEmptyWorld wLoadedState (some (str ("main"))) = .ok (repo, st1) ∧
      getResolvedApiKey wEmptyWorld st1 (some repo.id)
        = .ok (apiKey,
               { config := wLoadedState.config,
                 apiKeyCache := [(str ("main"), str ("valid_key_1234567890"))] }) ∧
      SecretsResolver.validate apiKey = .valid ∧
      ({ success := false,
         message := str ("Connection failed: ") ++ str ("boom"),
         responseTimeMs := 5 } : ConnectionTestResult).message
        = str ("Connection failed: ") ++
          SecretsResolver.redactFromText (str ("boom")) [apiKey] ∧
      ('*' ∉ apiKey → '$' ∉ apiKey →
        ¬ (apiKey <:+: SecretsResolver.redactFromText (str ("boom")) [apiKey])) :=
  C1_theorem wEmptyWorld wLoadedState (some (str ("main"))) (str ("boom")) 5
    { success := false,
      message := str ("Connection failed: ") ++ str ("boom"),
      responseTimeMs := 5 }
    { config := wLoadedState.config,
      apiKeyCache := [(str ("main"), str ("valid_key_1234567890"))] }
    (by intro kv hkv; exact absurd hkv (List.not_mem_nil kv))
    (by
      have hval : SecretsResolver.validate (str ("valid_key_1234567890")) = .valid := by decide
      have hres : SecretsResolver.resolveAndValidate wEmptyWorld.env
          (str ("valid_key_1234567890")) = .ok (str ("valid_key_1234567890")) := by
        have h1 : SecretsResolver.resolve wEmptyWorld.env (str ("valid_key_1234567890"))
            = .ok (str ("valid_key_1234567890")) := by
          simp [SecretsResolver.resolve, SecretsResolver.hasPh,
            SecretsResolver.splitBrace, str, wEmptyWorld]
        simp [SecretsResolver.resolveAndValidate, h1, hval]
      have hred : SecretsResolver.redactFromText (str ("boom"))
          [str ("valid_key_1234567890")] = str ("boom") := by
        have h1 : SecretsResolver.replaceAux 'v' (str ("alid_key_1234567890"))
            (SecretsResolver.mask (str ("valid_key_1234567890"))) []
            (str ("boom")) = str ("boom") := by
          simp [SecretsResolver.replaceAux, SecretsResolver.expandRep,
            SecretsResolver.mask, str, List.isPrefixOf]
        simpa [SecretsResolver.redactFromText, str] using h1
      have h1 : getRepositorySt wEmptyWorld wLoadedState (some (str ("main")))
          = .ok (wRepoMain, wLoadedState) := by decide
      have h2 : getResolvedApiKey wEmptyWorld wLoadedState (some wRepoMain.id)
          = .ok (str ("valid_key_1234567890"),
                 { config := wLoadedState.config,
                   apiKeyCache := [(str ("main"), str ("valid_key_1234567890"))] }) := by
        simp only [getResolvedApiKey]
        rw [show (some wRepoMain.id : Option (List Char)) = some (str ("main")) from rfl, h1]
        simp [wLoadedState, wRepoMain, wCfg, wRepoDev, cacheGet, cacheSet, hres]
      simp only [testConnection, h1, h2]
      simp [hred])

/-! Claim C8: fatality of parse and validation failures during configuration
loading. -/

/-- Candidates that do not exist on disk are skipped. -/
theorem loadConfigGo_skip (w : World) :
    ∀ (pre rest : List (List Char)), (∀ q ∈ pre, w.fs q = none) →
      loadConfigGo w (pre ++ rest) = loadConfigGo w rest := by
  intro pre
  induction pre with
  | nil => intro rest _; rfl
  | cons p ps ih =>
    intro rest hskip
    have hp : w.fs p = none := hskip p (List.mem_cons_self p ps)
    simp only [List.cons_append, loadConfigGo, hp]
    exact ih rest (fun q hq => hskip q (List.mem_cons_of_mem p hq))

/-- Claim C8, amended: if the first candidate path that exists on disk fails
to parse or fails schema validation, `loadConfig` fails immediately with the
parse or validation error propagated unchanged — the failing path is not
added to the error — and, since this holds for arbitrary worlds, no later
candidate path and no legacy environment fallback is attempted (the result
is the same error whatever the later candidates hold and whatever legacy
variables are set). -/
theorem C8_theorem (w : World) (pre : List (List Char)) (p : List Char)
    (ps : List (List Char)) (content e : List Char)
    (hcand : candidatePaths w = pre ++ p :: ps)
    (hskip : ∀ q ∈ pre, w.fs q = none)
    (hex : w.fs p = some content) :
    (w.parseJson content = .error e → loadConfig w = .error e) ∧
    (∀ raw, w.parseJson content = .ok raw → parseConfig w.urlValid raw = .error e →
      loadConfig w = .error e) := by
  have hbase : loadConfigGo w (candidatePaths w) = loadConfigGo w (p :: ps) := by
    rw [hcand]
    exact loadConfigGo_skip w pre (p :: ps) hskip
  constructor
  · intro hpj
    unfold loadConfig
    rw [hbase]
    simp only [loadConfigGo, hex, hpj]
  · intro raw hpj hpc
    unfold loadConfig
    rw [hbase]
    simp only [loadConfigGo, hex, hpj, hpc]

/-- Concrete world for the claim C8 counterexample: the explicit override
path exists but holds malformed JSON, a later candidate exists with valid
content, and both legacy variables are set. -/
def w8 : World :=
  { env := fun k =>
      if k = str ("REDMINE_CONFIG_PATH") then some (str ("/etc/redmine-config.json"))
      else if k = str ("REDMINE_URL") then some (str ("https://legacy.example.com"))
      else if k = str ("REDMINE_API_KEY") then some (str ("legacy_key_1234567890"))
      else none,
    fs := fun p =>
      if p = str ("/etc/redmine-config.json") then some (str ("not json"))
      else if p = str ("/work/redmine-repositories.local.json") then some (str ("ok json"))
      else none,
    parseJson := fun c =>
      if c = str ("not json") then
        .error (str ("Unexpected token o in JSON at position 1"))
      else .ok {},
    urlValid := fun _ => true,
    cwd := str ("/work"), homedir := str ("/home/user") }

/-- Claim C8, counterexample: the first existing candidate fails to parse and
`loadConfig` returns the raw parse error, which does not name the failing
path — even though a later candidate exists on disk and the legacy
environment variables are set, neither is consulted. -/
theorem C8_counterexample :
    loadConfig w8 = .error (str ("Unexpected token o in JSON at position 1")) ∧
    ¬ (str ("/etc/redmine-config.json") <:+:
        str ("Unexpected token o in JSON at position 1")) ∧
    w8.fs (str ("/work/redmine-repositories.local.json")) = some (str ("ok json")) ∧
    w8.env (str ("REDMINE_URL")) = some (str ("https://legacy.example.com")) := by
  refine ⟨by decide, by decide, by decide, by decide⟩

/-- Claim C8, witness: the amended theorem applied to the concrete world,
with the explicit override path as the first (and existing) candidate. -/
theorem C8_witness :
    (w8.parseJson (str ("not json"))
        = .error (str ("Unexpected token o in JSON at position 1")) →
      loadConfig w8 = .error (str ("Unexpected token o in JSON at position 1"))) ∧
    (∀ raw, w8.parseJson (str ("not json")) = .ok raw →
      parseConfig w8.urlValid raw
        = .error (str ("Unexpected token o in JSON at position 1")) →
      loadConfig w8 = .error (str ("Unexpected token o in JSON at position 1"))) :=
  C8_theorem w8 [] (str ("/etc/redmine-config.json"))
    [str ("/work/redmine-repositories.local.json"),
     str ("/work/redmine-repositories.json"),
     str ("/home/user/.mcp-integrated-search/redmine-repositories.json")]
    (str ("not json")) (str ("Unexpected token o in JSON at position 1"))
    (by decide) (by intro q hq; exact absurd hq (List.not_mem_nil q)) (by decide)

end MCPSearch
